import Mathlib

/-!
# The in-memory task store of `go-todo/main.go`

A shallow embedding of `Task`, `MemoryStore` and its methods `Add`, `List`,
`findIndex`, `Update`, `Delete`, `Toggle`, followed by the command loop of `main`, the
persisted variant `todoList-db/main-old.go` and the program `test.go`.

Modelling conventions.

* A Go slice `[]Task` is a `List Task`; the store is passed explicitly and every
  mutating method returns the new store.
* Go's `int` is `Int`.  The only arithmetic on ids is `s.nextID++`. `MemoryStore.Add64` is
  `Add` with the 64-bit wrap-around of that increment; `MemoryStore.Add` is `Add` on
  mathematical integers, which is the same function while `nextID` is below 2^63 - 1
  (`Add64_eq_Add`). The sequences of calls run from `NewMemoryStore()`, where `nextID` is 1
  and the wrap-around is 2^63 - 1 calls of `Add` away, and use `Add`.
* Go's `error` is `GoError := Option String`: `none` is `nil`, `some msg` is the value
  built by `fmt.Errorf`, identified by its message.
* A run-time panic (index or slice bound out of range) is the outer `none` of the
  `Option` returned by `Update`, `Delete` and `Toggle`.
-/

namespace GoTodo

/-- The record `Task` (main.go, lines 12-16). -/
structure Task where
  ID : Int
  Title : String
  Done : Bool
deriving DecidableEq, Repr

/-- The record `MemoryStore` (main.go, lines 28-31). -/
structure MemoryStore where
  tasks : List Task
  nextID : Int
deriving DecidableEq, Repr

/-- Go's `error` interface value: `none` is `nil`, `some msg` an error with message `msg`. -/
abbrev GoError := Option String

/-- The message of `fmt.Errorf("task %d not found", id)`. -/
def notFoundError (id : Int) : String :=
  "task " ++ toString id ++ " not found"

/-- The constructor `NewMemoryStore` (main.go, lines 33-35). -/
def NewMemoryStore : MemoryStore :=
  { tasks := [], nextID := 1 }

/-- The method `Add` (main.go, lines 37-42) with the counter a mathematical integer: the new
store and the returned task. -/
def MemoryStore.Add (s : MemoryStore) (title : String) : MemoryStore × Task :=
  let t : Task := { ID := s.nextID, Title := title, Done := false }
  ({ tasks := s.tasks ++ [t], nextID := s.nextID + 1 }, t)

/-- The value a 64-bit `int` holds when the mathematical result of an operation is `x`:
Go's signed integers wrap around. -/
def wrapInt64 (x : Int) : Int :=
  (x + 2 ^ 63) % 2 ^ 64 - 2 ^ 63

/-- The method `Add` (main.go, lines 37-42) with `s.nextID++` on the 64-bit `int`: the new
store and the returned task. -/
def MemoryStore.Add64 (s : MemoryStore) (title : String) : MemoryStore × Task :=
  let t : Task := { ID := s.nextID, Title := title, Done := false }
  ({ tasks := s.tasks ++ [t], nextID := wrapInt64 (s.nextID + 1) }, t)

/-- Calling `Add` on the titles in order: the final store and the returned tasks. -/
def AddEach (s : MemoryStore) : List String → MemoryStore × List Task
  | [] => (s, [])
  | t :: ts => ((AddEach (s.Add64 t).1 ts).1, (s.Add64 t).2 :: (AddEach (s.Add64 t).1 ts).2)

/-- The loop of `findIndex` over the tasks that remain from position `i` on. -/
def findIndexFrom (id : Int) : List Task → Nat → Int
  | [], _ => -1
  | t :: rest, i => if t.ID = id then (i : Int) else findIndexFrom id rest (i + 1)

/-- The method `findIndex` (main.go, lines 48-55). -/
def MemoryStore.findIndex (s : MemoryStore) (id : Int) : Int :=
  findIndexFrom id s.tasks 0

/-- The method `Update` (main.go, lines 57-64). -/
def MemoryStore.Update (s : MemoryStore) (id : Int) (title : String) :
    Option (MemoryStore × GoError) :=
  let idx := s.findIndex id
  if idx = -1 then some (s, some (notFoundError id))
  else if idx < 0 then none
  else
    match s.tasks[idx.toNat]? with
    | none => none
    | some t => some ({ s with tasks := s.tasks.set idx.toNat { t with Title := title } }, none)

/-- The method `Delete` (main.go, lines 66-73). -/
def MemoryStore.Delete (s : MemoryStore) (id : Int) : Option (MemoryStore × GoError) :=
  let idx := s.findIndex id
  if idx = -1 then some (s, some (notFoundError id))
  else if idx < 0 ∨ (s.tasks.length : Int) < idx + 1 then none
  else some ({ s with tasks := s.tasks.take idx.toNat ++ s.tasks.drop (idx.toNat + 1) }, none)

/-- The method `Toggle` (main.go, lines 75-82). -/
def MemoryStore.Toggle (s : MemoryStore) (id : Int) : Option (MemoryStore × GoError) :=
  let idx := s.findIndex id
  if idx = -1 then some (s, some (notFoundError id))
  else if idx < 0 then none
  else
    match s.tasks[idx.toNat]? with
    | none => none
    | some t => some ({ s with tasks := s.tasks.set idx.toNat { t with Done := !t.Done } }, none)

/-- The method `List` (main.go, lines 44-46). -/
def MemoryStore.List (s : MemoryStore) : List Task :=
  s.tasks

/-- One call of a mutating method of the `Store` interface, with its arguments. -/
inductive Call where
  | Add (title : String)
  | Update (id : Int) (title : String)
  | Delete (id : Int)
  | Toggle (id : Int)
deriving DecidableEq, Repr

/-- Perform one call: the new store and, for `Add`, the task it returned. The error
value of `Update`, `Delete` and `Toggle` goes to the caller and does not affect the store. -/
def doCall (s : MemoryStore) : Call → Option (MemoryStore × Option Task)
  | .Add title => some ((s.Add title).1, some (s.Add title).2)
  | .Update id title => (s.Update id title).map fun r => (r.1, none)
  | .Delete id => (s.Delete id).map fun r => (r.1, none)
  | .Toggle id => (s.Toggle id).map fun r => (r.1, none)

/-- Perform a finite sequence of calls in order: the final store and the tasks returned
by the `Add` calls, in order. -/
def runCalls (s : MemoryStore) : List Call → Option (MemoryStore × List Task)
  | [] => some (s, [])
  | c :: cs =>
    match doCall s c with
    | none => none
    | some (s1, r) =>
      match runCalls s1 cs with
      | none => none
      | some (s2, rs) => some (s2, r.toList ++ rs)

/-- The store invariant: the ids of the stored tasks are strictly ascending (hence pairwise
distinct) and all of them are below the counter `nextID`. -/
def Inv (s : MemoryStore) : Prop :=
  (s.tasks.map Task.ID).Pairwise (· < ·) ∧ ∀ t ∈ s.tasks, t.ID < s.nextID

end GoTodo

/-!
# The Go library functions the command loops call

A Go `string` is a sequence of bytes. It is modelled as a `String` whose characters are the
bytes (one character of code below 256 per byte), so `len(s)` is `s.data.length` and the
slice `s[k:]` drops `k` characters. White space is decided on the runes obtained by decoding
the bytes as UTF-8 from the front, as `strings.Fields` and `strings.TrimSpace` do.
-/

namespace utf8

/-- The rune `utf8.RuneError`, the result of decoding an invalid byte. -/
def RuneError : Nat := 0xFFFD

/-- The table `first` with its accept ranges: for a lead byte `s0` of a multi-byte encoding,
the size of the encoding and the bounds of its second byte; `none` for every other byte. -/
def leadInfo (s0 : Nat) : Option (Nat × Nat × Nat) :=
  if 0xC2 ≤ s0 ∧ s0 ≤ 0xDF then some (2, 0x80, 0xBF)
  else if s0 = 0xE0 then some (3, 0xA0, 0xBF)
  else if 0xE1 ≤ s0 ∧ s0 ≤ 0xEC then some (3, 0x80, 0xBF)
  else if s0 = 0xED then some (3, 0x80, 0x9F)
  else if 0xEE ≤ s0 ∧ s0 ≤ 0xEF then some (3, 0x80, 0xBF)
  else if s0 = 0xF0 then some (4, 0x90, 0xBF)
  else if 0xF1 ≤ s0 ∧ s0 ≤ 0xF3 then some (4, 0x80, 0xBF)
  else if s0 = 0xF4 then some (4, 0x80, 0x8F)
  else none

/-- The function `utf8.DecodeRuneInString`: the first rune of the bytes and its width; an
invalid or truncated encoding gives `(RuneError, 1)`, no bytes give `(RuneError, 0)`. -/
def DecodeRuneInString (s : List Char) : Nat × Nat :=
  match s with
  | [] => (RuneError, 0)
  | c0 :: rest =>
    if c0.toNat < 0x80 then (c0.toNat, 1)
    else
      match leadInfo c0.toNat with
      | none => (RuneError, 1)
      | some (sz, lo, hi) =>
        match (rest.take (sz - 1)).map Char.toNat with
        | [] => (RuneError, 1)
        | s1 :: more =>
          if more.length + 2 = sz ∧ lo ≤ s1 ∧ s1 ≤ hi ∧
              more.all (fun b => decide (0x80 ≤ b) && decide (b ≤ 0xBF)) = true then
            ((s1 :: more).foldl (fun r b => r * 64 + b % 64) (c0.toNat % 2 ^ (7 - sz)), sz)
          else (RuneError, 1)

end utf8

namespace unicode

/-- The function `unicode.IsSpace`: the runes with the Unicode property White_Space. -/
def IsSpace (r : Nat) : Bool :=
  decide ((0x09 ≤ r ∧ r ≤ 0x0D) ∨ r = 0x20 ∨ r = 0x85 ∨ r = 0xA0 ∨ r = 0x1680 ∨
    (0x2000 ≤ r ∧ r ≤ 0x200A) ∨ r = 0x2028 ∨ r = 0x2029 ∨ r = 0x202F ∨ r = 0x205F ∨
    r = 0x3000)

end unicode

namespace strings

/-- For every byte, whether the rune it belongs to is white space, the bytes being decoded
from the front. `skip` counts the bytes of the current rune still to come and `sp` is the
verdict on that rune. -/
def spaceMask : List Char → Nat → Bool → List Bool
  | [], _, _ => []
  | c :: rest, 0, _ =>
    (unicode.IsSpace (utf8.DecodeRuneInString (c :: rest)).1) ::
      spaceMask rest ((utf8.DecodeRuneInString (c :: rest)).2 - 1)
        (unicode.IsSpace (utf8.DecodeRuneInString (c :: rest)).1)
  | _ :: rest, skip + 1, sp => sp :: spaceMask rest skip sp

/-- The bytes of a string, each paired with its white-space verdict. -/
def marked (s : List Char) : List (Char × Bool) :=
  s.zip (spaceMask s 0 false)

/-- The splitting loop of `strings.Fields`: `cur` is the field being collected. -/
def fieldsLoop : List (Char × Bool) → List Char → List (List Char)
  | [], cur => if cur = [] then [] else [cur]
  | (c, sp) :: rest, cur =>
    if sp then (if cur = [] then [] else [cur]) ++ fieldsLoop rest []
    else fieldsLoop rest (cur ++ [c])

/-- The function `strings.Fields`: the maximal runs of bytes of non-space runes. -/
def Fields (s : String) : List String :=
  (fieldsLoop (marked s.data) []).map String.mk

/-- The function `strings.TrimSpace`: the string without its leading and trailing white
space runes. The trailing runes are read off the decoding from the front; Go decodes them
from the end, which finds the same runes, a lead byte or ASCII byte being the start of a
rune in either direction. -/
def TrimSpace (s : String) : String :=
  String.mk ((((marked s.data).dropWhile (fun x => x.2)).rdropWhile (fun x => x.2)).map
    (fun x => x.1))

end strings

namespace strconv

/-- The two causes of a `*strconv.NumError`. -/
inductive NumError where
  | ErrSyntax
  | ErrRange
deriving DecidableEq, Repr

/-- The digit loop of `strconv.ParseUint` for base 10 and 64 bits: `n` is the value so
far. A byte that is no decimal digit is a syntax error with value 0; an overflow is a range
error with the largest value. -/
def parseUintLoop : List Char → Nat → Nat × Option NumError
  | [], n => (n, none)
  | c :: rest, n =>
    if 48 ≤ c.toNat ∧ c.toNat ≤ 57 then
      if n ≥ (2 ^ 64 - 1) / 10 + 1 then (2 ^ 64 - 1, some NumError.ErrRange)
      else if n * 10 + (c.toNat - 48) > 2 ^ 64 - 1 then (2 ^ 64 - 1, some NumError.ErrRange)
      else parseUintLoop rest (n * 10 + (c.toNat - 48))
    else (0, some NumError.ErrSyntax)

/-- The function `strconv.ParseUint(s, 10, 64)`. -/
def ParseUint (s : List Char) : Nat × Option NumError :=
  if s = [] then (0, some NumError.ErrSyntax) else parseUintLoop s 0

/-- The function `strconv.Atoi` on a 64-bit platform, which is `ParseInt(s, 10, 0)`: an
optional sign and decimal digits; the value and the error, `none` being `nil`. -/
def Atoi (s : String) : Int × Option NumError :=
  if s.data = [] then (0, some NumError.ErrSyntax)
  else
    let neg : Bool := s.data.head? = some '-'
    let body : List Char :=
      if s.data.head? = some '-' ∨ s.data.head? = some '+' then s.data.tail else s.data
    match ParseUint body with
    | (_, some NumError.ErrSyntax) => (0, some NumError.ErrSyntax)
    | (un, _) =>
      if neg = false ∧ un ≥ 2 ^ 63 then (2 ^ 63 - 1, some NumError.ErrRange)
      else if neg = true ∧ un > 2 ^ 63 then (-(2 ^ 63), some NumError.ErrRange)
      else if neg then (-(un : Int), none)
      else ((un : Int), none)

end strconv

/-- The slice expression `s[k:]` of a Go string; `none` is the panic for `k > len(s)`. -/
def sliceFrom (s : String) (k : Nat) : Option String :=
  if k ≤ s.data.length then some (String.mk (s.data.drop k)) else none

namespace GoTodo

/-- What one pass of the command loop of `main` (main.go, lines 101-199) does with the line
it has read: the store method it calls with its arguments, or the branch that calls none. -/
inductive Action where
  | Skip
  | Help
  | Add (title : String)
  | ListAll
  | Update (id : Int) (title : String)
  | Delete (id : Int)
  | Toggle (id : Int)
  | Exit
  | Reject (msg : String)
  | Unknown (cmd : String)
  | Panic
deriving DecidableEq, Repr

/-- The body of the command loop of `main` (main.go, lines 108-198) up to the call of the
store: `raw` is the line as `reader.ReadString` returned it. `Panic` stands for an index or
slice expression out of range. -/
def dispatch (raw : String) : Action :=
  let line := strings.TrimSpace raw
  if line = "" then Action.Skip
  else
    let parts := strings.Fields line
    match parts[0]? with
    | none => Action.Panic
    | some cmd =>
      if cmd = "help" then Action.Help
      else if cmd = "add" then
        match sliceFrom line 3 with
        | none => Action.Panic
        | some rest =>
          if strings.TrimSpace rest = "" then Action.Reject "usage: add <title>"
          else Action.Add (strings.TrimSpace rest)
      else if cmd = "list" then Action.ListAll
      else if cmd = "update" then
        if parts.length < 3 then Action.Reject "usage: update <id> <title>"
        else
          match parts[1]? with
          | none => Action.Panic
          | some tok =>
            if (strconv.Atoi tok).2 ≠ none then Action.Reject "invalid id"
            else
              match sliceFrom line (7 + tok.data.length) with
              | none => Action.Panic
              | some rest =>
                if strings.TrimSpace rest = "" then Action.Reject "empty title"
                else Action.Update (strconv.Atoi tok).1 (strings.TrimSpace rest)
      else if cmd = "delete" then
        if parts.length ≠ 2 then Action.Reject "usage: delete <id>"
        else
          match parts[1]? with
          | none => Action.Panic
          | some tok =>
            if (strconv.Atoi tok).2 ≠ none then Action.Reject "invalid id"
            else Action.Delete (strconv.Atoi tok).1
      else if cmd = "done" then
        if parts.length ≠ 2 then Action.Reject "usage: done <id>"
        else
          match parts[1]? with
          | none => Action.Panic
          | some tok =>
            if (strconv.Atoi tok).2 ≠ none then Action.Reject "invalid id"
            else Action.Toggle (strconv.Atoi tok).1
      else if cmd = "exit" then Action.Exit
      else Action.Unknown cmd

/-- The effect of one pass of the command loop on the store; `none` is a panic. -/
def exec (s : MemoryStore) : Action → Option MemoryStore
  | Action.Add title => some (s.Add title).1
  | Action.Update id title => (s.Update id title).map (fun r => r.1)
  | Action.Delete id => (s.Delete id).map (fun r => r.1)
  | Action.Toggle id => (s.Toggle id).map (fun r => r.1)
  | Action.Panic => none
  | _ => some s

/-- One pass of the command loop: read line in, store out. -/
def processLine (s : MemoryStore) (raw : String) : Option MemoryStore :=
  exec s (dispatch raw)

end GoTodo

/-!
# The persisted variant, `todoList-db/main-old.go`

The generated Prisma client (`todoList_db/prisma/db`) is not part of the sources. The store
methods are modelled over the answers the client gives to the queries they send.
-/

namespace TodoListDB

/-- The fields of the client's `db.TaskModel` that the program reads. -/
structure TaskModel where
  ID : Int
  Title : String
  Done : Bool
deriving DecidableEq, Repr

/-- The answers of the Prisma client, one field per query the store methods build:
`findUnique id` is the pair `(task, err)` of `Task.FindUnique(ID.Equals(id)).Exec`, with
`none` for a nil task and for a nil error; `updateTitle`, `updateDone` and `delete` are the
errors of the `Update(...)` and `Delete()` queries on that selection. -/
structure PrismaClient where
  findUnique : Int → Option TaskModel × Option String
  updateTitle : Int → String → Option String
  updateDone : Int → Bool → Option String
  delete : Int → Option String

/-- The message of `fmt.Errorf("task %d not found", id)` (main-old.go, line 67). -/
def notFoundError (id : Int) : String :=
  "task " ++ toString id ++ " not found"

/-- The method `Store.Update` (main-old.go, lines 46-53): the returned error. -/
def Store.Update (c : PrismaClient) (id : Int) (title : String) : Option String :=
  c.updateTitle id title

/-- The method `Store.Delete` (main-old.go, lines 55-60): the returned error. -/
def Store.Delete (c : PrismaClient) (id : Int) : Option String :=
  c.delete id

/-- The method `Store.Toggle` (main-old.go, lines 62-75): the returned error. -/
def Store.Toggle (c : PrismaClient) (id : Int) : Option String :=
  match c.findUnique id with
  | (some task, none) => c.updateDone id (!task.Done)
  | _ => some (notFoundError id)

/-- What one pass of the command loop of `main` (main-old.go, lines 96-177) does with the
line it has read: the store method it calls with its arguments, or the branch that calls
none. -/
inductive Action where
  | Skip
  | Help
  | Add (title : String)
  | ListAll
  | Update (id : Int) (title : String)
  | Delete (id : Int)
  | Toggle (id : Int)
  | Exit
  | Reject (msg : String)
  | Unknown (cmd : String)
  | Panic
deriving DecidableEq, Repr

/-- The body of the command loop of `main` (main-old.go, lines 98-176) up to the call of the
store. The error of `strconv.Atoi` is discarded (`id, _ := strconv.Atoi(parts[1])`). -/
def dispatch (raw : String) : Action :=
  let line := strings.TrimSpace raw
  if line = "" then Action.Skip
  else
    let parts := strings.Fields line
    match parts[0]? with
    | none => Action.Panic
    | some cmd =>
      if cmd = "help" then Action.Help
      else if cmd = "add" then
        match sliceFrom line 3 with
        | none => Action.Panic
        | some rest =>
          if strings.TrimSpace rest = "" then Action.Reject "usage: add <title>"
          else Action.Add (strings.TrimSpace rest)
      else if cmd = "list" then Action.ListAll
      else if cmd = "update" then
        if parts.length < 3 then Action.Reject "usage: update <id> <title>"
        else
          match parts[1]? with
          | none => Action.Panic
          | some tok =>
            match sliceFrom line (7 + tok.data.length) with
            | none => Action.Panic
            | some rest => Action.Update (strconv.Atoi tok).1 (strings.TrimSpace rest)
      else if cmd = "delete" then
        if parts.length ≠ 2 then Action.Reject "usage: delete <id>"
        else
          match parts[1]? with
          | none => Action.Panic
          | some tok => Action.Delete (strconv.Atoi tok).1
      else if cmd = "done" then
        if parts.length ≠ 2 then Action.Reject "usage: done <id>"
        else
          match parts[1]? with
          | none => Action.Panic
          | some tok => Action.Toggle (strconv.Atoi tok).1
      else if cmd = "exit" then Action.Exit
      else Action.Unknown cmd

end TodoListDB

/-!
# The program `test.go`
-/

namespace TestGo

/-- The first loop of `main` (test.go, lines 9-13): `nums` has `n` elements, the `i`-th is
the `i`-th integer read, and stays 0 where the input has run out. -/
def readNums (n : Nat) (input : List Int) : List Int :=
  (List.range n).map (fun i => input.getD i 0)

/-- The second loop of `main` (test.go, lines 16-20), over the elements still to visit. -/
def maxLoop : List Int → Int → Int
  | [], maxVal => maxVal
  | x :: rest, maxVal => maxLoop rest (if x > maxVal then x else maxVal)

/-- The program `main` (test.go, lines 5-23): the number printed for the count `n` and the
integers read; `none` is the panic of `make([]int, n)` for a negative `n`. -/
def main (n : Int) (input : List Int) : Option Int :=
  if n < 0 then none else some (maxLoop (readNums n.toNat input) 0)

end TestGo

namespace GoTodo

/-! ## The linear scan -/

theorem findIndexFrom_absent (id : Int) (l : List Task) (i : Nat)
    (h : ∀ t ∈ l, t.ID ≠ id) : findIndexFrom id l i = -1 := by
  induction l generalizing i with
  | nil => rfl
  | cons t rest ih =>
    have ht : t.ID ≠ id := h t (List.mem_cons_self _ _)
    simp only [findIndexFrom, if_neg ht]
    exact ih (i + 1) (fun u hu => h u (List.mem_cons_of_mem _ hu))

theorem findIndexFrom_present (id : Int) (l : List Task) (i : Nat)
    (h : ∃ t ∈ l, t.ID = id) :
    ∃ k t, findIndexFrom id l i = ((i + k : Nat) : Int) ∧ l[k]? = some t ∧ t.ID = id ∧
      (∀ j u, j < k → l[j]? = some u → u.ID ≠ id) ∧
      l.take k ++ l.drop (k + 1) = l.eraseP (fun u => decide (u.ID = id)) := by
  induction l generalizing i with
  | nil => simp at h
  | cons t rest ih =>
    by_cases ht : t.ID = id
    · refine ⟨0, t, ?_, by simp, ht, ?_, ?_⟩
      · simp [findIndexFrom, ht]
      · intro j u hj; omega
      · simp [List.eraseP_cons, ht]
    · have h2 : ∃ u ∈ rest, u.ID = id := by
        obtain ⟨u, hu, hid⟩ := h
        rcases List.mem_cons.mp hu with rfl | hu
        · exact absurd hid ht
        · exact ⟨u, hu, hid⟩
      obtain ⟨k, u, hk, hget, hid, hleast, herase⟩ := ih (i + 1) h2
      refine ⟨k + 1, u, ?_, ?_, hid, ?_, ?_⟩
      · simp only [findIndexFrom, if_neg ht, hk]
        congr 1
        omega
      · simpa using hget
      · intro j v hj hv
        cases j with
        | zero =>
          simp at hv
          subst hv
          exact ht
        | succ j =>
          simp at hv
          exact hleast j v (by omega) hv
      · simp [List.eraseP_cons, ht, herase]

theorem findIndexFrom_ne_neg_one (id : Int) (l : List Task) (i : Nat)
    (h : ∃ t ∈ l, t.ID = id) : findIndexFrom id l i ≠ -1 := by
  obtain ⟨k, t, hk, _⟩ := findIndexFrom_present id l i h
  rw [hk]
  omega

/-! ## Each method on an absent and on a present id -/

theorem Update_absent (s : MemoryStore) (id : Int) (title : String)
    (h : ∀ t ∈ s.tasks, t.ID ≠ id) :
    s.Update id title = some (s, some (notFoundError id)) := by
  simp [MemoryStore.Update, MemoryStore.findIndex, findIndexFrom_absent id s.tasks 0 h]

theorem Delete_absent (s : MemoryStore) (id : Int) (h : ∀ t ∈ s.tasks, t.ID ≠ id) :
    s.Delete id = some (s, some (notFoundError id)) := by
  simp [MemoryStore.Delete, MemoryStore.findIndex, findIndexFrom_absent id s.tasks 0 h]

theorem Toggle_absent (s : MemoryStore) (id : Int) (h : ∀ t ∈ s.tasks, t.ID ≠ id) :
    s.Toggle id = some (s, some (notFoundError id)) := by
  simp [MemoryStore.Toggle, MemoryStore.findIndex, findIndexFrom_absent id s.tasks 0 h]

theorem Update_present (s : MemoryStore) (id : Int) (title : String)
    (h : ∃ t ∈ s.tasks, t.ID = id) :
    ∃ k t, s.tasks[k]? = some t ∧ t.ID = id ∧
      (∀ j u, j < k → s.tasks[j]? = some u → u.ID ≠ id) ∧
      s.Update id title =
        some ({ s with tasks := s.tasks.set k { t with Title := title } }, none) := by
  obtain ⟨k, t, hk, hget, hid, hleast, _⟩ := findIndexFrom_present id s.tasks 0 h
  refine ⟨k, t, hget, hid, hleast, ?_⟩
  have h1 : ¬ (((0 + k : Nat) : Int) = -1) := by omega
  have h2 : ¬ (((0 + k : Nat) : Int) < 0) := by omega
  simp only [MemoryStore.Update, MemoryStore.findIndex, hk, if_neg h1, if_neg h2]
  simp [hget]

theorem Toggle_present (s : MemoryStore) (id : Int) (h : ∃ t ∈ s.tasks, t.ID = id) :
    ∃ k t, s.tasks[k]? = some t ∧ t.ID = id ∧
      (∀ j u, j < k → s.tasks[j]? = some u → u.ID ≠ id) ∧
      s.Toggle id =
        some ({ s with tasks := s.tasks.set k { t with Done := !t.Done } }, none) := by
  obtain ⟨k, t, hk, hget, hid, hleast, _⟩ := findIndexFrom_present id s.tasks 0 h
  refine ⟨k, t, hget, hid, hleast, ?_⟩
  have h1 : ¬ (((0 + k : Nat) : Int) = -1) := by omega
  have h2 : ¬ (((0 + k : Nat) : Int) < 0) := by omega
  simp only [MemoryStore.Toggle, MemoryStore.findIndex, hk, if_neg h1, if_neg h2]
  simp [hget]

theorem Delete_present (s : MemoryStore) (id : Int) (h : ∃ t ∈ s.tasks, t.ID = id) :
    s.Delete id =
      some ({ s with tasks := s.tasks.eraseP (fun u => decide (u.ID = id)) }, none) := by
  obtain ⟨k, t, hk, hget, _, _, herase⟩ := findIndexFrom_present id s.tasks 0 h
  have hlt : k < s.tasks.length := by
    by_contra hge
    rw [List.getElem?_eq_none (by omega)] at hget
    cases hget
  have h1 : ¬ (((0 + k : Nat) : Int) = -1) := by omega
  have h2 : ¬ (((0 + k : Nat) : Int) < 0 ∨ (s.tasks.length : Int) < ((0 + k : Nat) : Int) + 1) := by
    omega
  simp only [MemoryStore.Delete, MemoryStore.findIndex, hk, if_neg h1, if_neg h2]
  simp [herase]

/-! ## The store invariant along a sequence of calls -/

theorem map_ID_set (l : List Task) (k : Nat) (t t1 : Task) (hget : l[k]? = some t)
    (hid : t1.ID = t.ID) : (l.set k t1).map Task.ID = l.map Task.ID := by
  apply List.ext_getElem?
  intro n
  by_cases hn : k = n
  · subst hn
    obtain ⟨hlt, heq⟩ := List.getElem?_eq_some_iff.mp hget
    simp [List.getElem?_set, hlt, hid, heq]
  · simp [List.getElem?_set, hn]

theorem Inv_new : Inv NewMemoryStore := by
  simp [Inv, NewMemoryStore]

theorem Inv_Add (s : MemoryStore) (title : String) (h : Inv s) : Inv (s.Add title).1 := by
  obtain ⟨hs, hb⟩ := h
  refine ⟨?_, ?_⟩
  · simp only [MemoryStore.Add, List.map_append, List.map_cons, List.map_nil]
    rw [List.pairwise_append]
    refine ⟨hs, List.pairwise_singleton _ _, ?_⟩
    intro a ha b hb2
    simp only [List.mem_singleton] at hb2
    subst hb2
    obtain ⟨t, ht, rfl⟩ := List.mem_map.mp ha
    exact hb t ht
  · intro t ht
    simp only [MemoryStore.Add, List.mem_append, List.mem_singleton] at ht ⊢
    rcases ht with ht | rfl
    · have := hb t ht
      omega
    · simp

theorem Inv_set (s : MemoryStore) (k : Nat) (t t1 : Task) (hget : s.tasks[k]? = some t)
    (hid : t1.ID = t.ID) (h : Inv s) : Inv { s with tasks := s.tasks.set k t1 } := by
  obtain ⟨hs, hb⟩ := h
  refine ⟨?_, ?_⟩
  · simpa [map_ID_set s.tasks k t t1 hget hid] using hs
  · intro u hu
    rcases List.mem_or_eq_of_mem_set hu with hu | rfl
    · exact hb u hu
    · rw [hid]
      exact hb t (List.getElem?_mem hget)

theorem Inv_erase (s : MemoryStore) (p : Task → Bool) (h : Inv s) :
    Inv { s with tasks := s.tasks.eraseP p } := by
  obtain ⟨hs, hb⟩ := h
  refine ⟨?_, ?_⟩
  · exact hs.sublist ((List.eraseP_sublist s.tasks).map Task.ID)
  · intro u hu
    exact hb u (List.mem_of_mem_eraseP hu)

theorem doCall_step (s : MemoryStore) (c : Call) (h : Inv s) :
    ∃ s1 r, doCall s c = some (s1, r) ∧ Inv s1 ∧ s.nextID ≤ s1.nextID ∧
      (∀ t ∈ r.toList, s.nextID ≤ t.ID ∧ t.ID < s1.nextID) ∧
      (∀ t ∈ s1.tasks, (∃ u ∈ s.tasks, u.ID = t.ID) ∨ s.nextID ≤ t.ID) := by
  have hframe : ∀ t ∈ s.tasks, (∃ u ∈ s.tasks, u.ID = t.ID) ∨ s.nextID ≤ t.ID :=
    fun t ht => Or.inl ⟨t, ht, rfl⟩
  cases c with
  | Add title =>
    refine ⟨(s.Add title).1, some (s.Add title).2, rfl, Inv_Add s title h, ?_, ?_, ?_⟩
    · simp [MemoryStore.Add]
    · intro t ht
      simp only [Option.toList, List.mem_singleton] at ht
      subst ht
      simp [MemoryStore.Add]
    · intro t ht
      simp only [MemoryStore.Add, List.mem_append, List.mem_singleton] at ht
      rcases ht with ht | rfl
      · exact hframe t ht
      · exact Or.inr (le_refl _)
  | Update id title =>
    by_cases hp : ∃ t ∈ s.tasks, t.ID = id
    · obtain ⟨k, t, hget, _, _, hup⟩ := Update_present s id title hp
      refine ⟨{ s with tasks := s.tasks.set k { t with Title := title } }, none,
        by simp [doCall, hup], Inv_set s k t _ hget rfl h, le_refl _, ?_, ?_⟩
      · simp
      · intro u hu
        rcases List.mem_or_eq_of_mem_set hu with hu | hu
        · exact hframe u hu
        · exact Or.inl ⟨t, List.getElem?_mem hget, by rw [hu]⟩
    · have ha : ∀ t ∈ s.tasks, t.ID ≠ id := fun t ht hid => hp ⟨t, ht, hid⟩
      exact ⟨s, none, by simp [doCall, Update_absent s id title ha], h, le_refl _, by simp,
        hframe⟩
  | Delete id =>
    by_cases hp : ∃ t ∈ s.tasks, t.ID = id
    · refine ⟨{ s with tasks := s.tasks.eraseP (fun u => decide (u.ID = id)) }, none,
        by simp [doCall, Delete_present s id hp], Inv_erase s _ h, le_refl _, by simp, ?_⟩
      intro u hu
      exact hframe u (List.mem_of_mem_eraseP hu)
    · have ha : ∀ t ∈ s.tasks, t.ID ≠ id := fun t ht hid => hp ⟨t, ht, hid⟩
      exact ⟨s, none, by simp [doCall, Delete_absent s id ha], h, le_refl _, by simp, hframe⟩
  | Toggle id =>
    by_cases hp : ∃ t ∈ s.tasks, t.ID = id
    · obtain ⟨k, t, hget, _, _, hup⟩ := Toggle_present s id hp
      refine ⟨{ s with tasks := s.tasks.set k { t with Done := !t.Done } }, none,
        by simp [doCall, hup], Inv_set s k t _ hget rfl h, le_refl _, ?_, ?_⟩
      · simp
      · intro u hu
        rcases List.mem_or_eq_of_mem_set hu with hu | hu
        · exact hframe u hu
        · exact Or.inl ⟨t, List.getElem?_mem hget, by rw [hu]⟩
    · have ha : ∀ t ∈ s.tasks, t.ID ≠ id := fun t ht hid => hp ⟨t, ht, hid⟩
      exact ⟨s, none, by simp [doCall, Toggle_absent s id ha], h, le_refl _, by simp, hframe⟩

theorem runCalls_inv (cs : List Call) : ∀ s : MemoryStore, Inv s →
    ∃ s2 rs, runCalls s cs = some (s2, rs) ∧ Inv s2 ∧ s.nextID ≤ s2.nextID ∧
      (∀ t ∈ rs, s.nextID ≤ t.ID ∧ t.ID < s2.nextID) ∧
      (∀ t ∈ s2.tasks, (∃ u ∈ s.tasks, u.ID = t.ID) ∨ s.nextID ≤ t.ID) := by
  induction cs with
  | nil =>
    intro s h
    exact ⟨s, [], rfl, h, le_refl _, by simp, fun t ht => Or.inl ⟨t, ht, rfl⟩⟩
  | cons c cs ih =>
    intro s h
    obtain ⟨s1, r, hc, h1, hn1, hr1, hf1⟩ := doCall_step s c h
    obtain ⟨s2, rs, hrun, h2, hn2, hr2, hf2⟩ := ih s1 h1
    refine ⟨s2, r.toList ++ rs, by simp [runCalls, hc, hrun], h2, le_trans hn1 hn2, ?_, ?_⟩
    · intro t ht
      rcases List.mem_append.mp ht with ht | ht
      · have := hr1 t ht
        omega
      · have := hr2 t ht
        omega
    · intro t ht
      rcases hf2 t ht with ⟨u, hu, hid⟩ | hge
      · rcases hf1 u hu with ⟨v, hv, hid2⟩ | hge
        · exact Or.inl ⟨v, hv, hid2.trans hid⟩
        · right
          omega
      · right
        omega

/-- Once the first task with id `i` is erased from a sequence with ascending ids, no task
with id `i` is left. -/
theorem eraseP_no_id (i : Int) (l : List Task) (h : (l.map Task.ID).Pairwise (· < ·)) :
    ∀ u ∈ l.eraseP (fun u => decide (u.ID = i)), u.ID ≠ i := by
  induction l with
  | nil => simp
  | cons t rest ih =>
    simp only [List.map_cons, List.pairwise_cons] at h
    by_cases ht : t.ID = i
    · intro u hu
      simp only [List.eraseP_cons, ht, decide_True, cond_true] at hu
      have := h.1 u.ID (List.mem_map_of_mem _ hu)
      omega
    · intro u hu
      simp only [List.eraseP_cons, ht, decide_False, cond_false, List.mem_cons] at hu
      rcases hu with rfl | hu
      · exact ht
      · exact ih h.2 u hu

/-! ## The 64-bit counter -/

theorem wrapInt64_of_range (x : Int) (h1 : -2 ^ 63 ≤ x) (h2 : x < 2 ^ 63) :
    wrapInt64 x = x := by
  unfold wrapInt64
  norm_num at h1 h2 ⊢
  omega

theorem wrapInt64_range (x : Int) : -2 ^ 63 ≤ wrapInt64 x ∧ wrapInt64 x < 2 ^ 63 := by
  unfold wrapInt64
  norm_num
  omega

/-- Below the largest `int` the 64-bit `Add` is the `Add` on mathematical integers. -/
theorem Add64_eq_Add (s : MemoryStore) (title : String) (h1 : -2 ^ 63 ≤ s.nextID)
    (h2 : s.nextID < 2 ^ 63 - 1) : s.Add64 title = s.Add title := by
  have : wrapInt64 (s.nextID + 1) = s.nextID + 1 :=
    wrapInt64_of_range _ (by omega) (by omega)
  simp [MemoryStore.Add64, MemoryStore.Add, this]

/-- Calling `Add` on the titles in order while the ids stay within the `int` range: one task
per title is returned and the `k`-th returned task has id `nextID + k`. -/
theorem AddEach_ids (titles : List String) : ∀ s : MemoryStore,
    -2 ^ 63 ≤ s.nextID → s.nextID + (titles.length : Int) ≤ 2 ^ 63 →
    (AddEach s titles).2.length = titles.length ∧
      ∀ (k : Nat) (r : Task), (AddEach s titles).2[k]? = some r →
        r.ID = s.nextID + (k : Int) := by
  induction titles with
  | nil =>
    intro s _ _
    simp [AddEach]
  | cons t ts ih =>
    intro s hlo hhi
    have hr := wrapInt64_range (s.nextID + 1)
    have hup : (s.Add64 t).1.nextID + (ts.length : Int) ≤ 2 ^ 63 := by
      cases ts with
      | nil =>
        simp only [MemoryStore.Add64, List.length_nil]
        have := hr.2
        push_cast
        omega
      | cons u us =>
        simp only [List.length_cons] at hhi ⊢
        push_cast at hhi ⊢
        have : wrapInt64 (s.nextID + 1) = s.nextID + 1 :=
          wrapInt64_of_range _ (by omega) (by omega)
        simp only [MemoryStore.Add64, this]
        omega
    obtain ⟨hlen, hid⟩ := ih (s.Add64 t).1 hr.1 hup
    refine ⟨by simp [AddEach, hlen], ?_⟩
    intro k r hk
    cases k with
    | zero =>
      simp only [AddEach, List.getElem?_cons_zero, Option.some.injEq] at hk
      subst hk
      simp [MemoryStore.Add64]
    | succ k =>
      simp only [AddEach, List.getElem?_cons_succ] at hk
      have h1 := hid k r hk
      have hne : ts ≠ [] := by
        intro h0
        subst h0
        simp [AddEach] at hk
      have hpos : 0 < ts.length := List.length_pos.mpr hne
      simp only [List.length_cons] at hhi
      push_cast at hhi
      have : wrapInt64 (s.nextID + 1) = s.nextID + 1 :=
        wrapInt64_of_range _ (by omega) (by omega)
      simp only [MemoryStore.Add64, this] at h1
      push_cast
      omega

/-- The scan looks at the ids only. -/
theorem findIndexFrom_congr (id : Int) (l : List Task) : ∀ (l1 : List Task) (i : Nat),
    l.map Task.ID = l1.map Task.ID → findIndexFrom id l i = findIndexFrom id l1 i := by
  induction l with
  | nil =>
    intro l1 i h
    cases l1 with
    | nil => rfl
    | cons a as => simp at h
  | cons t rest ih =>
    intro l1 i h
    cases l1 with
    | nil => simp at h
    | cons a as =>
      simp only [List.map_cons, List.cons.injEq] at h
      simp only [findIndexFrom, h.1, ih as (i + 1) h.2]

theorem set_getElem?_same (l : List Task) (k : Nat) (t : Task) (h : l[k]? = some t) :
    l.set k t = l := by
  apply List.ext_getElem?
  intro n
  by_cases hn : k = n
  · subst hn
    obtain ⟨hlt, heq⟩ := List.getElem?_eq_some_iff.mp h
    simp [hlt, heq]
  · simp [hn]

theorem findIndex_present (s : MemoryStore) (id : Int) (h : ∃ t ∈ s.tasks, t.ID = id) :
    ∃ (k : Nat) (t : Task), s.findIndex id = (k : Int) ∧ s.tasks[k]? = some t ∧ t.ID = id ∧
      (∀ j u, j < k → s.tasks[j]? = some u → u.ID ≠ id) ∧
      s.tasks.take k ++ s.tasks.drop (k + 1) = s.tasks.eraseP (fun u => decide (u.ID = id)) := by
  obtain ⟨k, t, hk, hget, hid, hleast, herase⟩ := findIndexFrom_present id s.tasks 0 h
  refine ⟨k, t, ?_, hget, hid, hleast, herase⟩
  simp [MemoryStore.findIndex, hk]

theorem Toggle_at (s : MemoryStore) (id : Int) (k : Nat) (t : Task)
    (hk : s.findIndex id = (k : Int)) (hget : s.tasks[k]? = some t) :
    s.Toggle id =
      some ({ s with tasks := s.tasks.set k { t with Done := !t.Done } }, none) := by
  have h1 : ¬ ((k : Int) = -1) := by omega
  have h2 : ¬ ((k : Int) < 0) := by omega
  simp only [MemoryStore.Toggle, hk, if_neg h1, if_neg h2]
  simp [hget]

/-- In a sequence with pairwise distinct ids a task is determined by its id. -/
theorem unique_index_of_nodup (l : List Task) (h : (l.map Task.ID).Nodup) (j k : Nat)
    (u t : Task) (hj : l[j]? = some u) (hk : l[k]? = some t) (hid : u.ID = t.ID) : j = k := by
  obtain ⟨hj1, ej⟩ := List.getElem?_eq_some_iff.mp hj
  obtain ⟨hk1, ek⟩ := List.getElem?_eq_some_iff.mp hk
  have hp := List.pairwise_iff_getElem.mp h
  rcases Nat.lt_trichotomy j k with hlt | heq | hgt
  · have := hp j k (by simpa using hj1) (by simpa using hk1) hlt
    simp [ej, ek, hid] at this
  · exact heq
  · have := hp k j (by simpa using hk1) (by simpa using hj1) hgt
    simp [ej, ek, hid] at this

/-! ## The not-found error and its message -/

theorem digitChar_toNat (d : Nat) (h : d < 10) : (Nat.digitChar d).toNat - 48 = d := by
  interval_cases d <;> rfl

theorem digitChar_ne_minus (d : Nat) (h : d < 10) : Nat.digitChar d ≠ '-' := by
  interval_cases d <;> decide

theorem toDigitsCore_eq (fuel : Nat) : ∀ (n : Nat) (acc : List Char), 0 < n → n < fuel →
    Nat.toDigitsCore 10 fuel n acc = ((Nat.digits 10 n).reverse.map Nat.digitChar) ++ acc := by
  induction fuel with
  | zero => intro n acc _ h; omega
  | succ fuel ih =>
    intro n acc hpos hlt
    rw [Nat.digits_def' (by norm_num) hpos]
    by_cases hz : n / 10 = 0
    · simp [Nat.toDigitsCore, hz]
    · have h1 : 0 < n / 10 := Nat.pos_of_ne_zero hz
      have h2 : n / 10 < fuel := by omega
      simp [Nat.toDigitsCore, hz, ih (n / 10) (Nat.digitChar (n % 10) :: acc) h1 h2]

theorem toDigits_eq (n : Nat) :
    ∃ L : List Nat, Nat.toDigits 10 n = L.map Nat.digitChar ∧ (∀ d ∈ L, d < 10) ∧
      Nat.ofDigits 10 L.reverse = n := by
  by_cases hn : n = 0
  · subst hn
    exact ⟨[0], by decide, by simp, by simp [Nat.ofDigits]⟩
  · refine ⟨(Nat.digits 10 n).reverse, ?_, ?_, ?_⟩
    · simp [Nat.toDigits, toDigitsCore_eq (n + 1) n [] (Nat.pos_of_ne_zero hn) (by omega)]
    · intro d hd
      exact Nat.digits_lt_base (by norm_num) (List.mem_reverse.mp hd)
    · simp [Nat.ofDigits_digits]

theorem map_digitChar_inj : ∀ (L M : List Nat), (∀ d ∈ L, d < 10) → (∀ d ∈ M, d < 10) →
    L.map Nat.digitChar = M.map Nat.digitChar → L = M := by
  intro L M hL hM h
  have h2 := congrArg (List.map (fun c : Char => c.toNat - 48)) h
  simp only [List.map_map] at h2
  have e : ∀ K : List Nat, (∀ d ∈ K, d < 10) →
      K.map ((fun c : Char => c.toNat - 48) ∘ Nat.digitChar) = K := by
    intro K hK
    conv_rhs => rw [← List.map_id K]
    apply List.map_congr_left
    intro d hd
    exact digitChar_toNat d (hK d hd)
  rw [e L hL, e M hM] at h2
  exact h2

theorem toDigits_inj (m n : Nat) (h : Nat.toDigits 10 m = Nat.toDigits 10 n) : m = n := by
  obtain ⟨L, hL, hLb, hLv⟩ := toDigits_eq m
  obtain ⟨M, hM, hMb, hMv⟩ := toDigits_eq n
  rw [hL, hM] at h
  have := map_digitChar_inj L M hLb hMb h
  rw [← hLv, ← hMv, this]

theorem toDigits_ne_minus (m : Nat) (cs : List Char) : Nat.toDigits 10 m ≠ '-' :: cs := by
  obtain ⟨L, hL, hLb, _⟩ := toDigits_eq m
  rw [hL]
  cases L with
  | nil => simp
  | cons d L =>
    intro h
    simp only [List.map_cons, List.cons.injEq] at h
    exact digitChar_ne_minus d (hLb d (List.mem_cons_self _ _)) h.1

theorem Int_toString_inj (i j : Int) (h : toString i = toString j) : i = j := by
  have hd := congrArg String.data h
  cases i with
  | ofNat m =>
    cases j with
    | ofNat n =>
      have : Nat.toDigits 10 m = Nat.toDigits 10 n := hd
      rw [toDigits_inj m n this]
    | negSucc n =>
      have : Nat.toDigits 10 m = '-' :: Nat.toDigits 10 (n + 1) := hd
      exact absurd this (toDigits_ne_minus m _)
  | negSucc m =>
    cases j with
    | ofNat n =>
      have : '-' :: Nat.toDigits 10 (m + 1) = Nat.toDigits 10 n := hd
      exact absurd this.symm (toDigits_ne_minus n _)
    | negSucc n =>
      have : '-' :: Nat.toDigits 10 (m + 1) = '-' :: Nat.toDigits 10 (n + 1) := hd
      have h2 := toDigits_inj _ _ (List.cons.inj this).2
      have : m = n := by omega
      rw [this]

/-- The message of the not-found error determines the id. -/
theorem notFoundError_inj (i j : Int) (h : notFoundError i = notFoundError j) : i = j := by
  apply Int_toString_inj
  have hd := congrArg String.data h
  simp only [notFoundError, String.data_append] at hd
  have h1 := List.append_cancel_right hd
  have h2 := List.append_cancel_left h1
  exact String.ext h2

/-- Each of `Update`, `Delete`, `Toggle` returns; the error is non-nil exactly when no task
has the id, and then it is the not-found error and the store is untouched. -/
theorem Update_error_iff (s : MemoryStore) (i : Int) (title : String) :
    ∃ s1 e, s.Update i title = some (s1, e) ∧ (e ≠ none ↔ ∀ t ∈ s.tasks, t.ID ≠ i) ∧
      (e ≠ none → s1 = s ∧ e = some (notFoundError i)) := by
  by_cases hp : ∃ t ∈ s.tasks, t.ID = i
  · obtain ⟨k, t, _, _, _, hup⟩ := Update_present s i title hp
    refine ⟨_, none, hup, ?_, by simp⟩
    constructor
    · intro hne
      exact absurd rfl hne
    · intro ha
      obtain ⟨u, hu, hid⟩ := hp
      exact absurd hid (ha u hu)
  · have ha : ∀ t ∈ s.tasks, t.ID ≠ i := fun t ht hid => hp ⟨t, ht, hid⟩
    exact ⟨s, some (notFoundError i), Update_absent s i title ha, by simpa using ha, by simp⟩

theorem Delete_error_iff (s : MemoryStore) (i : Int) :
    ∃ s1 e, s.Delete i = some (s1, e) ∧ (e ≠ none ↔ ∀ t ∈ s.tasks, t.ID ≠ i) ∧
      (e ≠ none → s1 = s ∧ e = some (notFoundError i)) := by
  by_cases hp : ∃ t ∈ s.tasks, t.ID = i
  · refine ⟨_, none, Delete_present s i hp, ?_, by simp⟩
    constructor
    · intro hne
      exact absurd rfl hne
    · intro ha
      obtain ⟨u, hu, hid⟩ := hp
      exact absurd hid (ha u hu)
  · have ha : ∀ t ∈ s.tasks, t.ID ≠ i := fun t ht hid => hp ⟨t, ht, hid⟩
    exact ⟨s, some (notFoundError i), Delete_absent s i ha, by simpa using ha, by simp⟩

theorem Toggle_error_iff (s : MemoryStore) (i : Int) :
    ∃ s1 e, s.Toggle i = some (s1, e) ∧ (e ≠ none ↔ ∀ t ∈ s.tasks, t.ID ≠ i) ∧
      (e ≠ none → s1 = s ∧ e = some (notFoundError i)) := by
  by_cases hp : ∃ t ∈ s.tasks, t.ID = i
  · obtain ⟨k, t, _, _, _, hup⟩ := Toggle_present s i hp
    refine ⟨_, none, hup, ?_, by simp⟩
    constructor
    · intro hne
      exact absurd rfl hne
    · intro ha
      obtain ⟨u, hu, hid⟩ := hp
      exact absurd hid (ha u hu)
  · have ha : ∀ t ∈ s.tasks, t.ID ≠ i := fun t ht hid => hp ⟨t, ht, hid⟩
    exact ⟨s, some (notFoundError i), Toggle_absent s i ha, by simpa using ha, by simp⟩

/-! ## Creation order -/

/-- After one call every stored task has the id of a task stored before the call, or is the
task the call returned. -/
theorem doCall_created (s : MemoryStore) (c : Call) :
    ∃ s1 r, doCall s c = some (s1, r) ∧
      ∀ t ∈ s1.tasks, (∃ u ∈ s.tasks, u.ID = t.ID) ∨ r = some t := by
  have hframe : ∀ t ∈ s.tasks, (∃ u ∈ s.tasks, u.ID = t.ID) ∨ (none : Option Task) = some t :=
    fun t ht => Or.inl ⟨t, ht, rfl⟩
  cases c with
  | Add title =>
    refine ⟨(s.Add title).1, some (s.Add title).2, rfl, ?_⟩
    intro t ht
    simp only [MemoryStore.Add, List.mem_append, List.mem_singleton] at ht
    rcases ht with ht | rfl
    · exact Or.inl ⟨t, ht, rfl⟩
    · exact Or.inr rfl
  | Update id title =>
    by_cases hp : ∃ t ∈ s.tasks, t.ID = id
    · obtain ⟨k, t, hget, _, _, hup⟩ := Update_present s id title hp
      refine ⟨{ s with tasks := s.tasks.set k { t with Title := title } }, none,
        by simp [doCall, hup], ?_⟩
      intro u hu
      rcases List.mem_or_eq_of_mem_set hu with hu | hu
      · exact hframe u hu
      · exact Or.inl ⟨t, List.getElem?_mem hget, by rw [hu]⟩
    · have ha : ∀ t ∈ s.tasks, t.ID ≠ id := fun t ht hid => hp ⟨t, ht, hid⟩
      exact ⟨s, none, by simp [doCall, Update_absent s id title ha], hframe⟩
  | Delete id =>
    by_cases hp : ∃ t ∈ s.tasks, t.ID = id
    · refine ⟨{ s with tasks := s.tasks.eraseP (fun u => decide (u.ID = id)) }, none,
        by simp [doCall, Delete_present s id hp], ?_⟩
      intro u hu
      exact hframe u (List.mem_of_mem_eraseP hu)
    · have ha : ∀ t ∈ s.tasks, t.ID ≠ id := fun t ht hid => hp ⟨t, ht, hid⟩
      exact ⟨s, none, by simp [doCall, Delete_absent s id ha], hframe⟩
  | Toggle id =>
    by_cases hp : ∃ t ∈ s.tasks, t.ID = id
    · obtain ⟨k, t, hget, _, _, hup⟩ := Toggle_present s id hp
      refine ⟨{ s with tasks := s.tasks.set k { t with Done := !t.Done } }, none,
        by simp [doCall, hup], ?_⟩
      intro u hu
      rcases List.mem_or_eq_of_mem_set hu with hu | hu
      · exact hframe u hu
      · exact Or.inl ⟨t, List.getElem?_mem hget, by rw [hu]⟩
    · have ha : ∀ t ∈ s.tasks, t.ID ≠ id := fun t ht hid => hp ⟨t, ht, hid⟩
      exact ⟨s, none, by simp [doCall, Toggle_absent s id ha], hframe⟩

/-- Along a sequence of calls from a store satisfying the invariant: the ids returned by the
`Add` calls ascend in the order of the calls, and every task of the final store has the id
of a task of the first store or of a task returned by one of the `Add` calls. -/
theorem runCalls_created (cs : List Call) : ∀ s : MemoryStore, Inv s →
    ∃ s2 rs, runCalls s cs = some (s2, rs) ∧ Inv s2 ∧
      (rs.map Task.ID).Pairwise (· < ·) ∧
      (∀ t ∈ rs, s.nextID ≤ t.ID) ∧
      (∀ t ∈ s2.tasks, (∃ u ∈ s.tasks, u.ID = t.ID) ∨ (∃ r ∈ rs, r.ID = t.ID)) := by
  induction cs with
  | nil =>
    intro s h
    exact ⟨s, [], rfl, h, by simp, by simp, fun t ht => Or.inl ⟨t, ht, rfl⟩⟩
  | cons c cs ih =>
    intro s h
    obtain ⟨s1, r, hc, h1, hn1, hr1, _⟩ := doCall_step s c h
    obtain ⟨s1b, rb, hcb, hcr⟩ := doCall_created s c
    rw [hc] at hcb
    cases hcb
    obtain ⟨s2, rs, hrun, h2, hpw, hlow, hcr2⟩ := ih s1 h1
    refine ⟨s2, r.toList ++ rs, by simp [runCalls, hc, hrun], h2, ?_, ?_, ?_⟩
    · rw [List.map_append, List.pairwise_append]
      refine ⟨?_, hpw, ?_⟩
      · cases r <;> simp
      · intro a ha b hb
        obtain ⟨t, ht, rfl⟩ := List.mem_map.mp ha
        obtain ⟨u, hu, rfl⟩ := List.mem_map.mp hb
        have := (hr1 t ht).2
        have := hlow u hu
        omega
    · intro t ht
      rcases List.mem_append.mp ht with ht | ht
      · exact (hr1 t ht).1
      · have := hlow t ht
        omega
    · intro t ht
      rcases hcr2 t ht with ⟨u, hu, hid⟩ | ⟨r2, hr2, hid⟩
      · rcases hcr u hu with ⟨v, hv, hid2⟩ | hret
        · exact Or.inl ⟨v, hv, hid2.trans hid⟩
        · exact Or.inr ⟨u, List.mem_append.mpr (Or.inl (by simp [hret])), hid⟩
      · exact Or.inr ⟨r2, List.mem_append.mpr (Or.inr hr2), hid⟩

/-! ## The claims -/

/-- C1. Store invariant: every finite sequence of `Add`, `Update`, `Delete` and `Toggle`
calls, with arbitrary arguments, runs from `NewMemoryStore()` to a store in which the task
ids are pairwise distinct and `nextID` is strictly greater than every id in the sequence
and than every id returned by an `Add` of the sequence of calls. -/
theorem store_invariant (cs : List Call) :
    ∃ s rs, runCalls NewMemoryStore cs = some (s, rs) ∧
      (s.tasks.map Task.ID).Nodup ∧
      (∀ t ∈ s.tasks, t.ID < s.nextID) ∧
      (∀ r ∈ rs, r.ID < s.nextID) := by
  obtain ⟨s, rs, hrun, hinv, _, hret, _⟩ := runCalls_inv cs NewMemoryStore Inv_new
  exact ⟨s, rs, hrun, hinv.1.imp (fun h => ne_of_lt h), hinv.2, fun r hr => (hret r hr).2⟩

/-- C2. Ids are never reused: in a store reached from `NewMemoryStore()` that holds a task
with id `i`, `Delete(i)` succeeds, and after any further finite sequence of calls no `Add`
of that sequence has returned a task with id `i` and no task of `List()` has id `i`. -/
theorem ids_never_reused (cs1 cs2 : List Call) (s : MemoryStore) (rs : List Task) (i : Int)
    (hreach : runCalls NewMemoryStore cs1 = some (s, rs))
    (hi : ∃ t ∈ s.List, t.ID = i) :
    ∃ s1, s.Delete i = some (s1, none) ∧
      ∃ s2 rs2, runCalls s1 cs2 = some (s2, rs2) ∧
        (∀ r ∈ rs2, r.ID ≠ i) ∧ (∀ t ∈ s2.List, t.ID ≠ i) := by
  obtain ⟨s0, rs0, hrun0, hinv, _, _, _⟩ := runCalls_inv cs1 NewMemoryStore Inv_new
  rw [hreach] at hrun0
  cases hrun0
  have hlt : i < s.nextID := by
    obtain ⟨t, ht, rfl⟩ := hi
    exact hinv.2 t ht
  refine ⟨{ s with tasks := s.tasks.eraseP (fun u => decide (u.ID = i)) },
    Delete_present s i hi, ?_⟩
  obtain ⟨s2, rs2, hrun2, _, _, hret, hframe⟩ :=
    runCalls_inv cs2 _ (Inv_erase s (fun u => decide (u.ID = i)) hinv)
  refine ⟨s2, rs2, hrun2, ?_, ?_⟩
  · intro r hr
    have := (hret r hr).1
    simp only at this
    omega
  · intro t ht
    rcases hframe t ht with ⟨u, hu, hid⟩ | hge
    · rw [← hid]
      exact eraseP_no_id i s.tasks hinv.1 u hu
    · simp only at hge
      omega

/-- The scenario of C2, and `ids_never_reused` at it: after `Add("a")`, `Add("b")` and
`Delete(1)`, `List()` is the one task with id 2 and the next `Add("c")` returns id 3. -/
theorem ids_never_reused_witness :
    runCalls NewMemoryStore [.Add "a", .Add "b"] =
        some (⟨[⟨1, "a", false⟩, ⟨2, "b", false⟩], 3⟩, [⟨1, "a", false⟩, ⟨2, "b", false⟩]) ∧
      (MemoryStore.Delete ⟨[⟨1, "a", false⟩, ⟨2, "b", false⟩], 3⟩ 1).map
        (fun r => (r.1.List, r.2, (r.1.Add "c").2)) =
          some ([⟨2, "b", false⟩], none, ⟨3, "c", false⟩) ∧
      ∃ s1, MemoryStore.Delete ⟨[⟨1, "a", false⟩, ⟨2, "b", false⟩], 3⟩ 1 = some (s1, none) ∧
        ∃ s2 rs2, runCalls s1 [.Add "c", .Delete 3, .Add "d"] = some (s2, rs2) ∧
          (∀ r ∈ rs2, r.ID ≠ 1) ∧ (∀ t ∈ s2.List, t.ID ≠ 1) :=
  ⟨by decide, by decide,
    ids_never_reused [.Add "a", .Add "b"] [.Add "c", .Delete 3, .Add "d"]
      ⟨[⟨1, "a", false⟩, ⟨2, "b", false⟩], 3⟩ [⟨1, "a", false⟩, ⟨2, "b", false⟩] 1
      (by decide) ⟨⟨1, "a", false⟩, by simp [MemoryStore.List], rfl⟩⟩

/-- C3, the claim as stated fails. In the store with `nextID = 2^63 - 1`, the largest `int`,
`Add` leaves `nextID = -2^63`: the counter has wrapped around and not grown by 1. -/
theorem Add_wraps_at_max_int :
    (MemoryStore.Add64 ⟨[], 9223372036854775807⟩ "a").1.nextID = -9223372036854775808 ∧
      (MemoryStore.Add64 ⟨[], 9223372036854775807⟩ "a").1.nextID ≠
        (MemoryStore.nextID ⟨[], 9223372036854775807⟩) + 1 ∧
      ¬ (∀ (s : MemoryStore) (title : String), (s.Add64 title).1.nextID = s.nextID + 1) := by
  refine ⟨by decide, by decide, ?_⟩
  intro h
  exact absurd (h ⟨[], 9223372036854775807⟩ "a") (by decide)

/-- C3, amended. Postcondition of `Add`: for every store and every title (the empty one
included) `Add` returns the task with the old `nextID`, the title and `Done = false`; the new
sequence is the old one with that task appended, so it is the last element of `List()` and
every earlier task is where it was; `nextID` has grown by exactly 1 when it was below the
largest `int`, 2^63 - 1, and is -2^63 when it was the largest `int`. -/
theorem Add_postcondition (s : MemoryStore) (title : String) :
    (s.Add64 title).2 = { ID := s.nextID, Title := title, Done := false } ∧
      (s.Add64 title).1.List = s.List ++ [(s.Add64 title).2] ∧
      (s.Add64 title).1.List.getLast? =
        some { ID := s.nextID, Title := title, Done := false } ∧
      (s.Add64 title).1.List.length = s.List.length + 1 ∧
      (∀ k, k < s.List.length → (s.Add64 title).1.List[k]? = s.List[k]?) ∧
      (-2 ^ 63 ≤ s.nextID → s.nextID < 2 ^ 63 - 1 →
        (s.Add64 title).1.nextID = s.nextID + 1) ∧
      (s.nextID = 2 ^ 63 - 1 → (s.Add64 title).1.nextID = -2 ^ 63) := by
  refine ⟨rfl, rfl, ?_, ?_, ?_, ?_, ?_⟩
  · simp [MemoryStore.Add64, MemoryStore.List]
  · simp [MemoryStore.Add64, MemoryStore.List]
  · intro k hk
    simp only [MemoryStore.Add64, MemoryStore.List] at hk ⊢
    exact List.getElem?_append_left hk
  · intro h1 h2
    exact wrapInt64_of_range _ (by omega) (by omega)
  · intro h
    simp only [MemoryStore.Add64, h]
    decide

/-- The theorem `Add_postcondition` at a store with two tasks and the empty title: the
bound on `nextID` holds there and `nextID` goes from 3 to 4. -/
theorem Add_postcondition_witness :
    (-2 ^ 63 ≤ MemoryStore.nextID ⟨[⟨1, "a", false⟩, ⟨2, "b", true⟩], 3⟩) ∧
      (MemoryStore.nextID ⟨[⟨1, "a", false⟩, ⟨2, "b", true⟩], 3⟩ < 2 ^ 63 - 1) ∧
      MemoryStore.Add64 ⟨[⟨1, "a", false⟩, ⟨2, "b", true⟩], 3⟩ "" =
        (⟨[⟨1, "a", false⟩, ⟨2, "b", true⟩, ⟨3, "", false⟩], 4⟩, ⟨3, "", false⟩) ∧
      (MemoryStore.Add64 ⟨[⟨1, "a", false⟩, ⟨2, "b", true⟩], 3⟩ "").1.nextID =
        (MemoryStore.nextID ⟨[⟨1, "a", false⟩, ⟨2, "b", true⟩], 3⟩) + 1 :=
  ⟨by decide, by decide, by decide,
    (Add_postcondition ⟨[⟨1, "a", false⟩, ⟨2, "b", true⟩], 3⟩ "").2.2.2.2.2.1
      (by decide) (by decide)⟩

/-- C4, the claim as stated fails. From the store with `nextID = 2^63 - 1` two calls of `Add`
return the ids 2^63 - 1 and -2^63: the second is not the first plus one and the ids are not
increasing. -/
theorem Add_ids_wrap_at_max_int :
    (AddEach ⟨[], 9223372036854775807⟩ ["a", "b"]).2.map Task.ID =
        [9223372036854775807, -9223372036854775808] ∧
      ¬ ((AddEach ⟨[], 9223372036854775807⟩ ["a", "b"]).2.map Task.ID).Pairwise (· < ·) := by
  constructor <;> decide

/-- C4, amended. For every store and every non-empty list of titles such that the last id
to hand out, `nextID + len - 1`, is at most the largest `int` 2^63 - 1, calling `Add` on the
titles in order returns one task per title, the first with id `nextID` and each next one
with the previous id plus one; so the returned ids are strictly increasing and pairwise
distinct. -/
theorem Add_ids_strictly_increasing (s : MemoryStore) (titles : List String)
    (hne : titles ≠ []) (hlo : -2 ^ 63 ≤ s.nextID)
    (hhi : s.nextID + (titles.length : Int) ≤ 2 ^ 63) :
    (AddEach s titles).2.length = titles.length ∧
      ((AddEach s titles).2.map Task.ID).head? = some s.nextID ∧
      (∀ (k : Nat) (a b : Task), (AddEach s titles).2[k]? = some a →
        (AddEach s titles).2[k + 1]? = some b → b.ID = a.ID + 1) ∧
      ((AddEach s titles).2.map Task.ID).Pairwise (· < ·) ∧
      ((AddEach s titles).2.map Task.ID).Nodup := by
  obtain ⟨hlen, hid⟩ := AddEach_ids titles s hlo hhi
  have hpw : ((AddEach s titles).2.map Task.ID).Pairwise (· < ·) := by
    rw [List.pairwise_iff_getElem]
    intro a b ha hb hab
    simp only [List.length_map] at ha hb
    simp only [List.getElem_map]
    have h1 := hid a (AddEach s titles).2[a] (List.getElem?_eq_getElem ha)
    have h2 := hid b (AddEach s titles).2[b] (List.getElem?_eq_getElem hb)
    omega
  refine ⟨hlen, ?_, ?_, hpw, hpw.imp (fun h => ne_of_lt h)⟩
  · cases hrs : (AddEach s titles).2 with
    | nil =>
      rw [hrs] at hlen
      cases titles with
      | nil => exact absurd rfl hne
      | cons t ts => simp at hlen
    | cons r rest =>
      have := hid 0 r (by simp [hrs])
      simp [this]
  · intro k a b ha hb
    have h1 := hid k a ha
    have h2 := hid (k + 1) b hb
    push_cast at h2
    omega

/-- The theorem `Add_ids_strictly_increasing` at the store whose `nextID` is 2^63 - 3 and
three titles: the ids 2^63 - 3, 2^63 - 2 and 2^63 - 1 are handed out, the last one being the
largest `int`. -/
theorem Add_ids_strictly_increasing_witness :
    ([("a" : String), "", "a"] ≠ []) ∧
      (AddEach ⟨[], 9223372036854775805⟩ ["a", "", "a"]).2.map Task.ID =
        [9223372036854775805, 9223372036854775806, 9223372036854775807] ∧
      ((AddEach ⟨[], 9223372036854775805⟩ ["a", "", "a"]).2.map Task.ID).Pairwise (· < ·) :=
  ⟨by decide, by decide,
    (Add_ids_strictly_increasing ⟨[], 9223372036854775805⟩ ["a", "", "a"] (by decide)
      (by decide) (by decide)).2.2.2.1⟩

/-- C5. `Delete` on an existing id: when some task of the store has id `i`, `Delete(i)`
returns `nil`; the new sequence is the old one with the first task of id `i` erased (the
task at the least position `k` holding id `i` is cut out, the rest keeps its order), its
length is one less, and `nextID` is unchanged. -/
theorem Delete_existing (s : MemoryStore) (i : Int) (h : ∃ t ∈ s.List, t.ID = i) :
    ∃ s1, s.Delete i = some (s1, none) ∧
      s1.List.length + 1 = s.List.length ∧
      s1.List = s.List.eraseP (fun u => decide (u.ID = i)) ∧
      (∃ k t, s.List[k]? = some t ∧ t.ID = i ∧
        (∀ j u, j < k → s.List[j]? = some u → u.ID ≠ i) ∧
        s1.List = s.List.take k ++ s.List.drop (k + 1)) ∧
      s1.List.Sublist s.List ∧
      s1.nextID = s.nextID := by
  obtain ⟨k, t, _, hget, hid, hleast, herase⟩ := findIndex_present s i h
  refine ⟨{ s with tasks := s.tasks.eraseP (fun u => decide (u.ID = i)) },
    Delete_present s i h, ?_, rfl, ⟨k, t, hget, hid, hleast, herase.symm⟩,
    List.eraseP_sublist s.tasks, rfl⟩
  have hmem : t ∈ s.tasks := List.getElem?_mem hget
  have hpos : 0 < s.tasks.length := List.length_pos_of_mem hmem
  simp only [MemoryStore.List]
  rw [List.length_eraseP_of_mem hmem (by simpa using hid)]
  omega

/-- The theorem `Delete_existing` at a store with two tasks of id 1 and one of id 2. -/
theorem Delete_existing_witness :
    (∃ t ∈ MemoryStore.List ⟨[⟨2, "b", true⟩, ⟨1, "a", false⟩, ⟨1, "c", true⟩], 3⟩, t.ID = 1) ∧
      MemoryStore.Delete ⟨[⟨2, "b", true⟩, ⟨1, "a", false⟩, ⟨1, "c", true⟩], 3⟩ 1 =
        some (⟨[⟨2, "b", true⟩, ⟨1, "c", true⟩], 3⟩, none) ∧
      ∃ s1, MemoryStore.Delete ⟨[⟨2, "b", true⟩, ⟨1, "a", false⟩, ⟨1, "c", true⟩], 3⟩ 1 =
          some (s1, none) ∧
        s1.nextID = 3 :=
  ⟨⟨⟨1, "a", false⟩, by simp [MemoryStore.List], rfl⟩, by decide,
    (Delete_existing ⟨[⟨2, "b", true⟩, ⟨1, "a", false⟩, ⟨1, "c", true⟩], 3⟩ 1
      ⟨⟨1, "a", false⟩, by simp [MemoryStore.List], rfl⟩).imp
      (fun _ hs => ⟨hs.1, hs.2.2.2.2.2⟩)⟩

/-- C6. `Update` on a non-existent id: when no task of the store `s` has id `i`,
`Update(i, t)` returns the non-nil error `task i not found` and the store is exactly `s`. -/
theorem Update_nonexistent (s : MemoryStore) (i : Int) (title : String)
    (h : ∀ t ∈ s.List, t.ID ≠ i) :
    ∃ e, s.Update i title = some (s, e) ∧ e ≠ none ∧ e = some (notFoundError i) :=
  ⟨some (notFoundError i), Update_absent s i title h, by simp, rfl⟩

/-- The theorem `Update_nonexistent` at a store holding ids 1 and 2, and id 3. -/
theorem Update_nonexistent_witness :
    (∀ t ∈ MemoryStore.List ⟨[⟨1, "a", false⟩, ⟨2, "b", true⟩], 3⟩, t.ID ≠ 3) ∧
      ∃ e, MemoryStore.Update ⟨[⟨1, "a", false⟩, ⟨2, "b", true⟩], 3⟩ 3 "x" =
          some (⟨[⟨1, "a", false⟩, ⟨2, "b", true⟩], 3⟩, e) ∧
        e ≠ none ∧ e = some (notFoundError 3) :=
  ⟨by simp [MemoryStore.List],
    Update_nonexistent ⟨[⟨1, "a", false⟩, ⟨2, "b", true⟩], 3⟩ 3 "x"
      (by simp [MemoryStore.List])⟩

/-- C7. `Update` on an existing id: when some task of the store has id `i`, `Update(i, t)`
returns `nil`; the task found for `i` (at the least position `k` holding that id) now has
title `t` with its id and done flag as before, every other position holds the task it held,
the length and `nextID` are unchanged; and when the ids of the store are pairwise distinct,
as in every reachable store, every task with id `i` in the result is that updated task. -/
theorem Update_existing (s : MemoryStore) (i : Int) (title : String)
    (h : ∃ t ∈ s.List, t.ID = i) :
    ∃ (s1 : MemoryStore) (k : Nat) (t : Task), s.Update i title = some (s1, none) ∧
      s.List[k]? = some t ∧ t.ID = i ∧
      (∀ j u, j < k → s.List[j]? = some u → u.ID ≠ i) ∧
      s1.List.length = s.List.length ∧
      s1.List[k]? = some { ID := i, Title := title, Done := t.Done } ∧
      (∀ j, j ≠ k → s1.List[j]? = s.List[j]?) ∧
      ((s.List.map Task.ID).Nodup →
        ∀ u ∈ s1.List, u.ID = i → u = { ID := i, Title := title, Done := t.Done }) ∧
      s1.nextID = s.nextID := by
  obtain ⟨k, t, hget, hid, hleast, hup⟩ := Update_present s i title h
  obtain ⟨hlt, _⟩ := List.getElem?_eq_some_iff.mp hget
  have hk : (s.tasks.set k { t with Title := title })[k]? =
      some { ID := i, Title := title, Done := t.Done } := by
    simp [hlt, hid]
  refine ⟨{ s with tasks := s.tasks.set k { t with Title := title } }, k, t, hup, hget, hid,
    hleast, by simp [MemoryStore.List], hk, ?_, ?_, rfl⟩
  · intro j hj
    simp only [MemoryStore.List]
    exact List.getElem?_set_ne (Ne.symm hj)
  · intro hnd u hu hui
    obtain ⟨j, hj⟩ := List.mem_iff_getElem?.mp hu
    simp only [MemoryStore.List] at hj hnd
    by_cases hjk : j = k
    · subst hjk
      rw [hk] at hj
      exact (Option.some.inj hj).symm
    · rw [List.getElem?_set_ne (Ne.symm hjk)] at hj
      exact absurd (unique_index_of_nodup s.tasks hnd j k u t hj hget (hui.trans hid.symm)) hjk

/-- The scenario of C7, and `Update_existing` at it: the store reached by `Add("old title")`,
`Add("b")`, `Toggle(2)` holds id 1; `Update(1, "new title")` succeeds and afterwards
`List()[0]` has the title `new title`. -/
theorem Update_existing_witness :
    (runCalls NewMemoryStore [.Add "old title", .Add "b", .Toggle 2]).map (fun r => r.1) =
        some ⟨[⟨1, "old title", false⟩, ⟨2, "b", true⟩], 3⟩ ∧
      (MemoryStore.Update ⟨[⟨1, "old title", false⟩, ⟨2, "b", true⟩], 3⟩ 1 "new title").map
        (fun r => (r.2, r.1.List[0]?.map Task.Title, r.1)) =
          some (none, some "new title", ⟨[⟨1, "new title", false⟩, ⟨2, "b", true⟩], 3⟩) ∧
      ∃ s1, MemoryStore.Update ⟨[⟨1, "old title", false⟩, ⟨2, "b", true⟩], 3⟩ 1 "new title" =
        some (s1, none) :=
  ⟨by decide, by decide,
    (Update_existing ⟨[⟨1, "old title", false⟩, ⟨2, "b", true⟩], 3⟩ 1 "new title"
      ⟨⟨1, "old title", false⟩, by simp [MemoryStore.List], rfl⟩).imp
      (fun _ hs => hs.elim (fun _ hk => hk.elim (fun _ ht => ht.1)))⟩

/-- C8. `Toggle` on an existing id: when some task of the store has id `i`, `Toggle(i)`
returns `nil`; the task found for `i` (at the least position `k` holding that id) now has its
done flag negated with its id and title as before, every other position holds the task it
held, the length and `nextID` are unchanged; and when the ids of the store are pairwise
distinct, every task with id `i` in the result is that toggled task. -/
theorem Toggle_existing (s : MemoryStore) (i : Int) (h : ∃ t ∈ s.List, t.ID = i) :
    ∃ (s1 : MemoryStore) (k : Nat) (t : Task), s.Toggle i = some (s1, none) ∧
      s.List[k]? = some t ∧ t.ID = i ∧
      (∀ j u, j < k → s.List[j]? = some u → u.ID ≠ i) ∧
      s1.List.length = s.List.length ∧
      s1.List[k]? = some { ID := i, Title := t.Title, Done := !t.Done } ∧
      (∀ j, j ≠ k → s1.List[j]? = s.List[j]?) ∧
      ((s.List.map Task.ID).Nodup →
        ∀ u ∈ s1.List, u.ID = i → u = { ID := i, Title := t.Title, Done := !t.Done }) ∧
      s1.nextID = s.nextID := by
  obtain ⟨k, t, hget, hid, hleast, hup⟩ := Toggle_present s i h
  obtain ⟨hlt, _⟩ := List.getElem?_eq_some_iff.mp hget
  have hk : (s.tasks.set k { t with Done := !t.Done })[k]? =
      some { ID := i, Title := t.Title, Done := !t.Done } := by
    simp [hlt, hid]
  refine ⟨{ s with tasks := s.tasks.set k { t with Done := !t.Done } }, k, t, hup, hget, hid,
    hleast, by simp [MemoryStore.List], hk, ?_, ?_, rfl⟩
  · intro j hj
    simp only [MemoryStore.List]
    exact List.getElem?_set_ne (Ne.symm hj)
  · intro hnd u hu hui
    obtain ⟨j, hj⟩ := List.mem_iff_getElem?.mp hu
    simp only [MemoryStore.List] at hj hnd
    by_cases hjk : j = k
    · subst hjk
      rw [hk] at hj
      exact (Option.some.inj hj).symm
    · rw [List.getElem?_set_ne (Ne.symm hjk)] at hj
      exact absurd (unique_index_of_nodup s.tasks hnd j k u t hj hget (hui.trans hid.symm)) hjk

/-- The theorem `Toggle_existing` at a store holding ids 1 and 2, toggling id 2. -/
theorem Toggle_existing_witness :
    MemoryStore.Toggle ⟨[⟨1, "a", false⟩, ⟨2, "b", false⟩], 3⟩ 2 =
        some (⟨[⟨1, "a", false⟩, ⟨2, "b", true⟩], 3⟩, none) ∧
      ∃ s1, MemoryStore.Toggle ⟨[⟨1, "a", false⟩, ⟨2, "b", false⟩], 3⟩ 2 = some (s1, none) :=
  ⟨by decide,
    (Toggle_existing ⟨[⟨1, "a", false⟩, ⟨2, "b", false⟩], 3⟩ 2
      ⟨⟨2, "b", false⟩, by simp [MemoryStore.List], rfl⟩).imp
      (fun _ hs => hs.elim (fun _ hk => hk.elim (fun _ ht => ht.1)))⟩

/-- C9. `Toggle` is an involution: when some task of the store `s` has id `i`, `Toggle(i)`
returns `nil` and a second `Toggle(i)` returns `nil` again and gives back exactly `s`. -/
theorem Toggle_twice (s : MemoryStore) (i : Int) (h : ∃ t ∈ s.List, t.ID = i) :
    ∃ s1, s.Toggle i = some (s1, none) ∧ s1.Toggle i = some (s, none) := by
  obtain ⟨k, t, hk, hget, _, _, _⟩ := findIndex_present s i h
  obtain ⟨hlt, _⟩ := List.getElem?_eq_some_iff.mp hget
  refine ⟨{ s with tasks := s.tasks.set k { t with Done := !t.Done } },
    Toggle_at s i k t hk hget, ?_⟩
  have hk1 : MemoryStore.findIndex
      { s with tasks := s.tasks.set k { t with Done := !t.Done } } i = (k : Int) := by
    rw [← hk]
    exact findIndexFrom_congr i _ _ 0 (map_ID_set s.tasks k t _ hget rfl)
  have hget1 : (s.tasks.set k { t with Done := !t.Done })[k]? =
      some { t with Done := !t.Done } := by
    simp [hlt]
  rw [Toggle_at _ i k _ hk1 hget1]
  simp only [List.set_set, Bool.not_not]
  rw [set_getElem?_same s.tasks k _ hget]

/-- The theorem `Toggle_twice` at a store holding ids 1 and 2, toggling id 1. -/
theorem Toggle_twice_witness :
    (∃ t ∈ MemoryStore.List ⟨[⟨1, "a", true⟩, ⟨2, "b", false⟩], 3⟩, t.ID = 1) ∧
      ∃ s1, MemoryStore.Toggle ⟨[⟨1, "a", true⟩, ⟨2, "b", false⟩], 3⟩ 1 = some (s1, none) ∧
        s1.Toggle 1 = some (⟨[⟨1, "a", true⟩, ⟨2, "b", false⟩], 3⟩, none) :=
  ⟨⟨⟨1, "a", true⟩, by simp [MemoryStore.List], rfl⟩,
    Toggle_twice ⟨[⟨1, "a", true⟩, ⟨2, "b", false⟩], 3⟩ 1
      ⟨⟨1, "a", true⟩, by simp [MemoryStore.List], rfl⟩⟩

/-- C10. `Delete` and `Toggle` on an absent id: when no task of the store `s` has id `i`,
`Delete(i)` and `Toggle(i)` each return the non-nil error with message `task i not found`
(`i` in decimal) and the store is exactly `s`; the message determines the id, so different
ids give different errors; and for every store and id each of `Update`, `Delete`, `Toggle`
returns, with a non-nil error if and only if no task has the id, that error being the
not-found error and the store then being untouched. -/
theorem absent_id_NotFound (s : MemoryStore) (i : Int) (h : ∀ t ∈ s.List, t.ID ≠ i) :
    s.Delete i = some (s, some (notFoundError i)) ∧
      s.Toggle i = some (s, some (notFoundError i)) ∧
      notFoundError i = "task " ++ toString i ++ " not found" ∧
      (∀ j, notFoundError j = notFoundError i → j = i) ∧
      (∀ (s0 : MemoryStore) (j : Int) (title : String),
        (∃ s1 e, s0.Update j title = some (s1, e) ∧ (e ≠ none ↔ ∀ t ∈ s0.List, t.ID ≠ j) ∧
          (e ≠ none → s1 = s0 ∧ e = some (notFoundError j))) ∧
        (∃ s1 e, s0.Delete j = some (s1, e) ∧ (e ≠ none ↔ ∀ t ∈ s0.List, t.ID ≠ j) ∧
          (e ≠ none → s1 = s0 ∧ e = some (notFoundError j))) ∧
        (∃ s1 e, s0.Toggle j = some (s1, e) ∧ (e ≠ none ↔ ∀ t ∈ s0.List, t.ID ≠ j) ∧
          (e ≠ none → s1 = s0 ∧ e = some (notFoundError j)))) :=
  ⟨Delete_absent s i h, Toggle_absent s i h, rfl, fun j hj => notFoundError_inj j i hj,
    fun s0 j title => ⟨Update_error_iff s0 j title, Delete_error_iff s0 j, Toggle_error_iff s0 j⟩⟩

/-- The scenario of C10, and `absent_id_NotFound` at it: `Toggle(5)` on the store returned by
`NewMemoryStore()` returns the error `task 5 not found`; a negative id prints with its sign. -/
theorem absent_id_NotFound_witness :
    (∀ t ∈ NewMemoryStore.List, t.ID ≠ 5) ∧
      NewMemoryStore.Toggle 5 = some (NewMemoryStore, some "task 5 not found") ∧
      NewMemoryStore.Delete (-12) = some (NewMemoryStore, some "task -12 not found") ∧
      NewMemoryStore.Delete 5 = some (NewMemoryStore, some (notFoundError 5)) ∧
      NewMemoryStore.Toggle 5 = some (NewMemoryStore, some (notFoundError 5)) :=
  ⟨by simp [MemoryStore.List, NewMemoryStore], by decide, by decide,
    (absent_id_NotFound NewMemoryStore 5 (by simp [MemoryStore.List, NewMemoryStore])).1,
    (absent_id_NotFound NewMemoryStore 5 (by simp [MemoryStore.List, NewMemoryStore])).2.1⟩

/-- C11. Initial state: `NewMemoryStore()` has an empty `List()` and the counter 1; so for
every title the first `Add` on it returns the task with id 1, that title and `Done = false`,
and `List()` is then exactly that one task. The title `buy milk` is an instance. -/
theorem initial_state :
    NewMemoryStore.List = [] ∧ NewMemoryStore.nextID = 1 ∧
      (∀ title : String,
        (NewMemoryStore.Add title).2 = { ID := 1, Title := title, Done := false } ∧
        (NewMemoryStore.Add title).1.List = [{ ID := 1, Title := title, Done := false }]) ∧
      (NewMemoryStore.Add "buy milk").2 = { ID := 1, Title := "buy milk", Done := false } ∧
      (NewMemoryStore.Add "buy milk").1.List =
        [{ ID := 1, Title := "buy milk", Done := false }] :=
  ⟨rfl, rfl, fun _ => ⟨rfl, rfl⟩, rfl, rfl⟩

/-- C12. `List()` returns exactly the stored sequence (it computes nothing else and assigns
nothing); and in every store reached from `NewMemoryStore()` by a finite sequence of calls
the returned sequence is in creation order: its ids are strictly ascending, the ids handed
out by the `Add` calls ascend in the order of the calls, and every listed task carries the
id of a task returned by one of these `Add` calls. -/
theorem List_in_insertion_order (cs : List Call) :
    (∀ s : MemoryStore, s.List = s.tasks) ∧
      ∃ s rs, runCalls NewMemoryStore cs = some (s, rs) ∧
        (s.List.map Task.ID).Pairwise (· < ·) ∧
        (rs.map Task.ID).Pairwise (· < ·) ∧
        (∀ t ∈ s.List, ∃ r ∈ rs, r.ID = t.ID) := by
  refine ⟨fun _ => rfl, ?_⟩
  obtain ⟨s, rs, hrun, hinv, hpw, _, hcr⟩ := runCalls_created cs NewMemoryStore Inv_new
  refine ⟨s, rs, hrun, hinv.1, hpw, ?_⟩
  intro t ht
  rcases hcr t ht with ⟨u, hu, _⟩ | h
  · simp [NewMemoryStore] at hu
  · exact h

/-- C17. After a successful `Delete` the id is gone: in a store reached from
`NewMemoryStore()` that holds a task with id `i`, `Delete(i)` succeeds and leaves no task
with id `i` in `List()`; so `Update(i, t)`, `Toggle(i)` and a second `Delete(i)` right after
it each return the not-found error and leave the store as it is. -/
theorem Delete_then_gone (cs : List Call) (s : MemoryStore) (rs : List Task) (i : Int)
    (hreach : runCalls NewMemoryStore cs = some (s, rs))
    (hi : ∃ t ∈ s.List, t.ID = i) :
    ∃ s1, s.Delete i = some (s1, none) ∧ (∀ t ∈ s1.List, t.ID ≠ i) ∧
      (∀ title, s1.Update i title = some (s1, some (notFoundError i))) ∧
      s1.Toggle i = some (s1, some (notFoundError i)) ∧
      s1.Delete i = some (s1, some (notFoundError i)) := by
  obtain ⟨s0, rs0, hrun0, hinv, _, _, _⟩ := runCalls_inv cs NewMemoryStore Inv_new
  rw [hreach] at hrun0
  cases hrun0
  have hgone : ∀ t ∈ s.tasks.eraseP (fun u => decide (u.ID = i)), t.ID ≠ i :=
    eraseP_no_id i s.tasks hinv.1
  exact ⟨{ s with tasks := s.tasks.eraseP (fun u => decide (u.ID = i)) },
    Delete_present s i hi, hgone, fun title => Update_absent _ i title hgone,
    Toggle_absent _ i hgone, Delete_absent _ i hgone⟩

/-- The theorem `Delete_then_gone` at the store reached by `Add("a")`, `Add("b")`, `Toggle(1)`
and the id 1. -/
theorem Delete_then_gone_witness :
    runCalls NewMemoryStore [.Add "a", .Add "b", .Toggle 1] =
        some (⟨[⟨1, "a", true⟩, ⟨2, "b", false⟩], 3⟩, [⟨1, "a", false⟩, ⟨2, "b", false⟩]) ∧
      ∃ s1, MemoryStore.Delete ⟨[⟨1, "a", true⟩, ⟨2, "b", false⟩], 3⟩ 1 = some (s1, none) ∧
        (∀ t ∈ s1.List, t.ID ≠ 1) ∧
        (∀ title, s1.Update 1 title = some (s1, some (notFoundError 1))) ∧
        s1.Toggle 1 = some (s1, some (notFoundError 1)) ∧
        s1.Delete 1 = some (s1, some (notFoundError 1)) :=
  ⟨by decide,
    Delete_then_gone [.Add "a", .Add "b", .Toggle 1] ⟨[⟨1, "a", true⟩, ⟨2, "b", false⟩], 3⟩
      [⟨1, "a", false⟩, ⟨2, "b", false⟩] 1 (by decide)
      ⟨⟨1, "a", true⟩, by simp [MemoryStore.List], rfl⟩⟩

/-- C20. `findIndex(id)` returns the least index whose task has the id when some task has
it, and -1 otherwise; so the result is -1 exactly when no task has the id, and is otherwise
an index of the sequence. It returns an index only: the store is not an output. -/
theorem findIndex_least (s : MemoryStore) (id : Int) :
    ((∃ t ∈ s.tasks, t.ID = id) →
        ∃ (k : Nat) (t : Task), s.findIndex id = (k : Int) ∧ k < s.tasks.length ∧
          s.tasks[k]? = some t ∧ t.ID = id ∧
          ∀ (j : Nat) (u : Task), j < k → s.tasks[j]? = some u → u.ID ≠ id) ∧
      ((∀ t ∈ s.tasks, t.ID ≠ id) → s.findIndex id = -1) ∧
      (s.findIndex id = -1 ↔ ∀ t ∈ s.tasks, t.ID ≠ id) ∧
      (s.findIndex id ≠ -1 → 0 ≤ s.findIndex id ∧ s.findIndex id < s.tasks.length) := by
  have hpres : (∃ t ∈ s.tasks, t.ID = id) →
      ∃ (k : Nat) (t : Task), s.findIndex id = (k : Int) ∧ k < s.tasks.length ∧
        s.tasks[k]? = some t ∧ t.ID = id ∧
        ∀ (j : Nat) (u : Task), j < k → s.tasks[j]? = some u → u.ID ≠ id := by
    intro h
    obtain ⟨k, t, hk, hget, hid, hleast, _⟩ := findIndex_present s id h
    exact ⟨k, t, hk, (List.getElem?_eq_some_iff.mp hget).1, hget, hid, hleast⟩
  have habs : (∀ t ∈ s.tasks, t.ID ≠ id) → s.findIndex id = -1 :=
    fun h => findIndexFrom_absent id s.tasks 0 h
  refine ⟨hpres, habs, ⟨?_, habs⟩, ?_⟩
  · intro hneg t ht hid
    exact findIndexFrom_ne_neg_one id s.tasks 0 ⟨t, ht, hid⟩ hneg
  · intro hne
    by_cases hp : ∃ t ∈ s.tasks, t.ID = id
    · obtain ⟨k, t, hk, hlt, _⟩ := hpres hp
      rw [hk]
      omega
    · exact absurd (habs (fun t ht hid => hp ⟨t, ht, hid⟩)) hne

end GoTodo

/-! # The library functions: decoding, fields and trimming -/

namespace utf8

theorem IsSpace_RuneError : unicode.IsSpace RuneError = false := by decide

/-- A decoding that yields a white-space rune has read a complete encoding: more bytes
behind it do not change it. -/
theorem DecodeRuneInString_append (p x : List Char)
    (h : unicode.IsSpace (DecodeRuneInString p).1 = true) :
    DecodeRuneInString (p ++ x) = DecodeRuneInString p := by
  cases p with
  | nil => simp [DecodeRuneInString, IsSpace_RuneError] at h
  | cons c0 rest =>
    simp only [List.cons_append, DecodeRuneInString] at h ⊢
    by_cases h0 : c0.toNat < 0x80
    · simp only [if_pos h0]
    · simp only [if_neg h0] at h ⊢
      cases hl : leadInfo c0.toNat with
      | none => simp only [hl, IsSpace_RuneError] at h; cases h
      | some info =>
        obtain ⟨sz, lo, hi⟩ := info
        simp only [hl] at h ⊢
        cases hm : (rest.take (sz - 1)).map Char.toNat with
        | nil => simp only [hm, IsSpace_RuneError] at h; cases h
        | cons s1 more =>
          simp only [hm] at h
          by_cases hc : more.length + 2 = sz ∧ lo ≤ s1 ∧ s1 ≤ hi ∧
              more.all (fun b => decide (0x80 ≤ b) && decide (b ≤ 0xBF)) = true
          · have hlen : sz - 1 ≤ rest.length := by
              have := congrArg List.length hm
              simp only [List.length_map, List.length_take, List.length_cons] at this
              omega
            rw [List.take_append_of_le_length hlen, hm]
          · simp only [if_neg hc, IsSpace_RuneError] at h
            cases h

end utf8

namespace strings

theorem spaceMask_length (s : List Char) : ∀ (k : Nat) (sp : Bool),
    (spaceMask s k sp).length = s.length := by
  induction s with
  | nil => intro k sp; rfl
  | cons c rest ih =>
    intro k sp
    cases k with
    | zero => simp [spaceMask, ih]
    | succ k => simp [spaceMask, ih]

theorem marked_map_fst (s : List Char) : (marked s).map (fun x => x.1) = s := by
  have h : s.length ≤ (spaceMask s 0 false).length := by rw [spaceMask_length]
  simpa [marked] using List.map_fst_zip s (spaceMask s 0 false) h

theorem marked_length (s : List Char) : (marked s).length = s.length := by
  simp [marked, spaceMask_length]

/-- A field under collection is never lost. -/
theorem fieldsLoop_ne_nil (l : List (Char × Bool)) : ∀ cur : List Char, cur ≠ [] →
    fieldsLoop l cur ≠ [] := by
  induction l with
  | nil => intro cur h; simp [fieldsLoop, h]
  | cons x rest ih =>
    intro cur h
    obtain ⟨c, sp⟩ := x
    cases sp with
    | true => simp [fieldsLoop, h]
    | false =>
      simp only [fieldsLoop]
      exact ih (cur ++ [c]) (by simp)

/-- The fields are non-empty, and together with one separating byte between neighbours they
fit into the bytes they were cut from. -/
theorem fieldsLoop_bound (l : List (Char × Bool)) : ∀ cur : List Char,
    ((fieldsLoop l cur).map List.length).sum + (fieldsLoop l cur).length ≤
        cur.length + l.length + 1 ∧
      ∀ f ∈ fieldsLoop l cur, f ≠ [] := by
  induction l with
  | nil =>
    intro cur
    by_cases h : cur = []
    · simp [fieldsLoop, h]
    · simp [fieldsLoop, h]
  | cons x rest ih =>
    intro cur
    obtain ⟨c, sp⟩ := x
    cases sp with
    | true =>
      obtain ⟨h1, h2⟩ := ih []
      by_cases h : cur = []
      · subst h
        simp only [fieldsLoop, if_true, List.nil_append, List.length_nil, List.length_cons] at h1 ⊢
        exact ⟨by omega, h2⟩
      · simp only [fieldsLoop, if_true, if_neg h, List.singleton_append, List.map_cons,
          List.sum_cons, List.length_cons, List.length_nil, List.mem_cons] at h1 ⊢
        refine ⟨by omega, ?_⟩
        rintro f (rfl | hf)
        · exact h
        · exact h2 f hf
    | false =>
      obtain ⟨h1, h2⟩ := ih (cur ++ [c])
      simp only [fieldsLoop, List.length_append, List.length_cons, List.length_nil] at h1 ⊢
      exact ⟨by simpa using (by omega : _ ≤ cur.length + (rest.length + 1) + 1), h2⟩

theorem Fields_bound (s : String) :
    ((Fields s).map (fun f => f.data.length)).sum + (Fields s).length ≤ s.data.length + 1 ∧
      ∀ f ∈ Fields s, f.data ≠ [] := by
  obtain ⟨h1, h2⟩ := fieldsLoop_bound (marked s.data) []
  rw [marked_length] at h1
  constructor
  · simpa [Fields, Function.comp_def] using h1
  · intro f hf
    simp only [Fields, List.mem_map] at hf
    obtain ⟨g, hg, rfl⟩ := hf
    exact h2 g hg

/-- Skipping the leading white space of a string stops at the front of a rune that is not
white space, or consumes the string. -/
theorem dropWhile_marked (s : List Char) : ∀ (k : Nat) (sp : Bool), (k = 0 ∨ sp = true) →
    (s.zip (spaceMask s k sp)).dropWhile (fun x => x.2) = [] ∨
      ∃ c r, (s.zip (spaceMask s k sp)).dropWhile (fun x => x.2) = marked (c :: r) ∧
        unicode.IsSpace (utf8.DecodeRuneInString (c :: r)).1 = false := by
  induction s with
  | nil => intro k sp _; left; simp [spaceMask]
  | cons c rest ih =>
    intro k sp hk
    cases k with
    | zero =>
      cases hsp : unicode.IsSpace (utf8.DecodeRuneInString (c :: rest)).1 with
      | true =>
        have := ih ((utf8.DecodeRuneInString (c :: rest)).2 - 1) true (Or.inr rfl)
        simpa [spaceMask, hsp, List.dropWhile_cons] using this
      | false =>
        right
        refine ⟨c, rest, ?_, hsp⟩
        simp [marked, spaceMask, hsp, List.dropWhile_cons]
    | succ k =>
      have hsp : sp = true := by
        rcases hk with hk | hk
        · omega
        · exact hk
      subst hsp
      have := ih k true (Or.inr rfl)
      simpa [spaceMask, List.dropWhile_cons] using this

/-- A non-empty result of `TrimSpace` starts with a rune that is not white space. -/
theorem TrimSpace_head (s : String) (h : TrimSpace s ≠ "") :
    ∃ c r, (TrimSpace s).data = c :: r ∧
      unicode.IsSpace (utf8.DecodeRuneInString (c :: r)).1 = false := by
  have hd : (TrimSpace s).data ≠ [] := by
    intro h0
    exact h (String.ext h0)
  rcases dropWhile_marked s.data 0 false (Or.inl rfl) with h0 | ⟨c0, r0, h0, hns⟩
  · exfalso
    apply hd
    simp only [TrimSpace, marked]
    rw [h0]
    rfl
  · have hpre : (TrimSpace s).data <+: c0 :: r0 := by
      have h1 : ((marked (c0 :: r0)).rdropWhile (fun x => x.2)).map (fun x => x.1) <+:
          (marked (c0 :: r0)).map (fun x => x.1) :=
        (List.rdropWhile_prefix (fun x : Char × Bool => x.2) (marked (c0 :: r0))).map _
      rw [marked_map_fst] at h1
      simp only [TrimSpace]
      rw [show (marked s.data).dropWhile (fun x => x.2) = marked (c0 :: r0) from h0]
      exact h1
    obtain ⟨x, hx⟩ := hpre
    cases hdata : (TrimSpace s).data with
    | nil => exact absurd hdata hd
    | cons c r =>
      refine ⟨c, r, rfl, ?_⟩
      cases hsp : unicode.IsSpace (utf8.DecodeRuneInString (c :: r)).1 with
      | false => rfl
      | true =>
        have := utf8.DecodeRuneInString_append (c :: r) x hsp
        rw [← hdata, hx] at this
        rw [this, hdata, hsp] at hns
        cases hns

/-- A trimmed line that is not empty has at least one field. -/
theorem Fields_TrimSpace_ne_nil (s : String) (h : TrimSpace s ≠ "") :
    Fields (TrimSpace s) ≠ [] := by
  obtain ⟨c, r, hdata, hns⟩ := TrimSpace_head s h
  simp only [Fields, hdata, marked, spaceMask, hns, List.zip_cons_cons, fieldsLoop,
    List.nil_append, ne_eq, List.map_eq_nil_iff]
  exact fieldsLoop_ne_nil _ [c] (by simp)

theorem Fields_head_le (s f : String) (rest : List String) (h : Fields s = f :: rest) :
    f.data.length ≤ s.data.length := by
  have := (Fields_bound s).1
  rw [h] at this
  simp only [List.map_cons, List.sum_cons, List.length_cons] at this
  omega

theorem Fields_second_le (s f0 f1 f2 : String) (rest : List String)
    (h : Fields s = f0 :: f1 :: f2 :: rest) :
    f0.data.length + f1.data.length + 3 ≤ s.data.length := by
  obtain ⟨hb, hne⟩ := Fields_bound s
  rw [h] at hb hne
  have h2 : 0 < f2.data.length := List.length_pos.mpr (hne f2 (by simp))
  simp only [List.map_cons, List.sum_cons, List.length_cons] at hb
  omega

end strings

namespace GoTodo

/-! ## The command loop -/

theorem sliceFrom_of_le (s : String) (k : Nat) (h : k ≤ s.data.length) :
    sliceFrom s k = some (String.mk (s.data.drop k)) := by
  unfold sliceFrom
  rw [if_pos h]

/-- In the `add` branch the slice `line[len("add"):]` is within bounds. -/
theorem add_slice_in_bounds (line : String) (rest : List String)
    (hf : strings.Fields line = "add" :: rest) : 3 ≤ line.data.length :=
  strings.Fields_head_le line "add" rest hf

/-- In the `update` branch the slice `line[len("update ")+len(parts[1]):]` is within
bounds. -/
theorem update_slice_in_bounds (line tok : String) (rest : List String)
    (hf : strings.Fields line = "update" :: rest) (hlen : ¬ ("update" :: rest).length < 3)
    (htok : ("update" :: rest)[1]? = some tok) : 7 + tok.data.length ≤ line.data.length := by
  cases rest with
  | nil => simp at htok
  | cons f1 rest1 =>
    cases rest1 with
    | nil => simp at hlen
    | cons f2 rest2 =>
      simp only [List.getElem?_cons_succ, List.getElem?_cons_zero, Option.some.injEq] at htok
      subst htok
      have := strings.Fields_second_le line "update" f1 f2 rest2 hf
      have h6 : ("update" : String).data.length = 6 := by decide
      omega

theorem second_field_exists (cmd : String) (rest : List String)
    (h : ¬ (cmd :: rest).length < 3 ∨ ¬ (cmd :: rest).length ≠ 2) :
    ∃ tok, (cmd :: rest)[1]? = some tok := by
  cases rest with
  | nil => simp at h
  | cons f1 rest1 => exact ⟨f1, by simp⟩

/-- No pass of the command loop runs into an index or slice expression out of range. -/
theorem dispatch_ne_Panic (raw : String) : dispatch raw ≠ Action.Panic := by
  unfold dispatch
  simp only []
  by_cases hl : strings.TrimSpace raw = ""
  · simp [hl]
  · rw [if_neg hl]
    cases hf : strings.Fields (strings.TrimSpace raw) with
    | nil => exact absurd hf (strings.Fields_TrimSpace_ne_nil raw hl)
    | cons cmd rest =>
      simp only [List.getElem?_cons_zero]
      by_cases h1 : cmd = "help"
      · simp [h1]
      rw [if_neg h1]
      by_cases h2 : cmd = "add"
      · subst h2
        rw [if_pos rfl, sliceFrom_of_le _ 3 (add_slice_in_bounds _ rest hf)]
        simp only []
        split <;> simp
      rw [if_neg h2]
      by_cases h3 : cmd = "list"
      · simp [h3]
      rw [if_neg h3]
      by_cases h4 : cmd = "update"
      · subst h4
        rw [if_pos rfl]
        by_cases hlen : ("update" :: rest).length < 3
        · rw [if_pos hlen]
          simp
        · rw [if_neg hlen]
          obtain ⟨tok, htok⟩ := second_field_exists "update" rest (Or.inl hlen)
          rw [htok]
          simp only []
          rw [sliceFrom_of_le _ _ (update_slice_in_bounds _ tok rest hf hlen htok)]
          simp only []
          split
          · simp
          · split <;> simp
      rw [if_neg h4]
      by_cases h5 : cmd = "delete"
      · rw [if_pos h5]
        by_cases hlen : (cmd :: rest).length ≠ 2
        · rw [if_pos hlen]
          simp
        · rw [if_neg hlen]
          obtain ⟨tok, htok⟩ := second_field_exists cmd rest (Or.inr hlen)
          rw [htok]
          simp only []
          split <;> simp
      rw [if_neg h5]
      by_cases h6 : cmd = "done"
      · rw [if_pos h6]
        by_cases hlen : (cmd :: rest).length ≠ 2
        · rw [if_pos hlen]
          simp
        · rw [if_neg hlen]
          obtain ⟨tok, htok⟩ := second_field_exists cmd rest (Or.inr hlen)
          rw [htok]
          simp only []
          split <;> simp
      rw [if_neg h6]
      split <;> simp

/-- When the pass calls `Add`: the command word is `add` and the title is the trimmed rest
of the line, which is not empty. -/
theorem dispatch_Add (raw title : String) (h : dispatch raw = Action.Add title) :
    title ≠ "" ∧ (strings.Fields (strings.TrimSpace raw))[0]? = some "add" ∧
      ∃ rest, sliceFrom (strings.TrimSpace raw) 3 = some rest ∧
        title = strings.TrimSpace rest := by
  unfold dispatch at h
  simp only [] at h
  repeat' split at h
  all_goals first | (cases h; done) | skip
  rename_i hline _ cmd hcmd _ hadd _ rest hrest hne
  cases h
  subst hadd
  exact ⟨hne, hcmd, rest, hrest, rfl⟩

/-- When the pass calls `Update`: the command word is `update`, the second field is accepted
by `strconv.Atoi` with the id as value, and the title is not empty. -/
theorem dispatch_Update (raw title : String) (id : Int)
    (h : dispatch raw = Action.Update id title) :
    title ≠ "" ∧ (strings.Fields (strings.TrimSpace raw))[0]? = some "update" ∧
      ∃ tok, (strings.Fields (strings.TrimSpace raw))[1]? = some tok ∧
        strconv.Atoi tok = (id, none) := by
  unfold dispatch at h
  simp only [] at h
  repeat' split at h
  all_goals first | (cases h; done) | skip
  rename_i hline _ cmd hcmd _ _ _ hupd _ _ tok htok herr _ rest hrest hne
  cases h
  subst hupd
  refine ⟨hne, hcmd, tok, htok, ?_⟩
  exact Prod.ext rfl (by simpa using herr)

/-- When the pass calls `Delete`: the command word is `delete` and the second field is
accepted by `strconv.Atoi` with the id as value. -/
theorem dispatch_Delete (raw : String) (id : Int) (h : dispatch raw = Action.Delete id) :
    (strings.Fields (strings.TrimSpace raw))[0]? = some "delete" ∧
      ∃ tok, (strings.Fields (strings.TrimSpace raw))[1]? = some tok ∧
        strconv.Atoi tok = (id, none) := by
  unfold dispatch at h
  simp only [] at h
  repeat' split at h
  all_goals first | (cases h; done) | skip
  rename_i hline _ cmd hcmd _ _ _ _ hdel _ _ tok htok herr
  cases h
  subst hdel
  refine ⟨hcmd, tok, htok, ?_⟩
  exact Prod.ext rfl (by simpa using herr)

/-- When the pass calls `Toggle`: the command word is `done` and the second field is
accepted by `strconv.Atoi` with the id as value. -/
theorem dispatch_Toggle (raw : String) (id : Int) (h : dispatch raw = Action.Toggle id) :
    (strings.Fields (strings.TrimSpace raw))[0]? = some "done" ∧
      ∃ tok, (strings.Fields (strings.TrimSpace raw))[1]? = some tok ∧
        strconv.Atoi tok = (id, none) := by
  unfold dispatch at h
  simp only [] at h
  repeat' split at h
  all_goals first | (cases h; done) | skip
  rename_i hline _ cmd hcmd _ _ _ _ _ hdone _ _ tok htok herr
  cases h
  subst hdone
  refine ⟨hcmd, tok, htok, ?_⟩
  exact Prod.ext rfl (by simpa using herr)

/-- One pass of the command loop leaves the store as it is, or makes exactly the one store
call that `dispatch` names. -/
theorem processLine_cases (s : MemoryStore) (raw : String) :
    processLine s raw = some s ∨
      (∃ title, dispatch raw = Action.Add title ∧
        processLine s raw = some (s.Add title).1) ∨
      (∃ id title, dispatch raw = Action.Update id title ∧
        processLine s raw = (s.Update id title).map (fun r => r.1)) ∨
      (∃ id, dispatch raw = Action.Delete id ∧
        processLine s raw = (s.Delete id).map (fun r => r.1)) ∨
      (∃ id, dispatch raw = Action.Toggle id ∧
        processLine s raw = (s.Toggle id).map (fun r => r.1)) := by
  unfold processLine
  cases hd : dispatch raw with
  | Panic => exact absurd hd (dispatch_ne_Panic raw)
  | Add title => exact Or.inr (Or.inl ⟨title, rfl, rfl⟩)
  | Update id title => exact Or.inr (Or.inr (Or.inl ⟨id, title, rfl, rfl⟩))
  | Delete id => exact Or.inr (Or.inr (Or.inr (Or.inl ⟨id, rfl, rfl⟩)))
  | Toggle id => exact Or.inr (Or.inr (Or.inr (Or.inr ⟨id, rfl, rfl⟩)))
  | Skip => exact Or.inl rfl
  | Help => exact Or.inl rfl
  | ListAll => exact Or.inl rfl
  | Exit => exact Or.inl rfl
  | Reject msg => exact Or.inl rfl
  | Unknown cmd => exact Or.inl rfl

/-! ## The claims on the command loop -/

/-- C14. The command loop of `go-todo/main.go` validates before it calls the store: on every
input line `Add` and `Update` are called with a non-empty title only, and `Update`, `Delete`
and `Toggle` only when `strconv.Atoi` accepts the id token, with exactly its value; every
pass leaves the store as it is or makes that one call; and a line whose id token is refused,
whose `add` title is empty, or whose command word is none of `add`, `update`, `delete`,
`done`, leaves the store unchanged. -/
theorem dispatch_validates (s : MemoryStore) (raw : String) :
    (∀ title, dispatch raw = Action.Add title →
        title ≠ "" ∧ (strings.Fields (strings.TrimSpace raw))[0]? = some "add") ∧
      (∀ id title, dispatch raw = Action.Update id title →
        title ≠ "" ∧ (strings.Fields (strings.TrimSpace raw))[0]? = some "update" ∧
          ∃ tok, (strings.Fields (strings.TrimSpace raw))[1]? = some tok ∧
            strconv.Atoi tok = (id, none)) ∧
      (∀ id, dispatch raw = Action.Delete id →
        (strings.Fields (strings.TrimSpace raw))[0]? = some "delete" ∧
          ∃ tok, (strings.Fields (strings.TrimSpace raw))[1]? = some tok ∧
            strconv.Atoi tok = (id, none)) ∧
      (∀ id, dispatch raw = Action.Toggle id →
        (strings.Fields (strings.TrimSpace raw))[0]? = some "done" ∧
          ∃ tok, (strings.Fields (strings.TrimSpace raw))[1]? = some tok ∧
            strconv.Atoi tok = (id, none)) ∧
      (processLine s raw = some s ∨
        (∃ title, dispatch raw = Action.Add title ∧
          processLine s raw = some (s.Add title).1) ∨
        (∃ id title, dispatch raw = Action.Update id title ∧
          processLine s raw = (s.Update id title).map (fun r => r.1)) ∨
        (∃ id, dispatch raw = Action.Delete id ∧
          processLine s raw = (s.Delete id).map (fun r => r.1)) ∨
        (∃ id, dispatch raw = Action.Toggle id ∧
          processLine s raw = (s.Toggle id).map (fun r => r.1))) ∧
      (∀ cmd tok, (strings.Fields (strings.TrimSpace raw))[0]? = some cmd → cmd ≠ "add" →
        (strings.Fields (strings.TrimSpace raw))[1]? = some tok →
        (strconv.Atoi tok).2 ≠ none → processLine s raw = some s) ∧
      (∀ rest, (strings.Fields (strings.TrimSpace raw))[0]? = some "add" →
        sliceFrom (strings.TrimSpace raw) 3 = some rest → strings.TrimSpace rest = "" →
        processLine s raw = some s) ∧
      (∀ cmd, (strings.Fields (strings.TrimSpace raw))[0]? = some cmd →
        cmd ≠ "add" → cmd ≠ "update" → cmd ≠ "delete" → cmd ≠ "done" →
        processLine s raw = some s) := by
  refine ⟨fun title h => ⟨(dispatch_Add raw title h).1, (dispatch_Add raw title h).2.1⟩,
    fun id title h => dispatch_Update raw title id h, fun id h => dispatch_Delete raw id h,
    fun id h => dispatch_Toggle raw id h, processLine_cases s raw, ?_, ?_, ?_⟩
  · intro cmd tok hcmd hne htok herr
    rcases processLine_cases s raw with h | ⟨title, h, _⟩ | ⟨id, title, h, _⟩ | ⟨id, h, _⟩ |
      ⟨id, h, _⟩
    · exact h
    · have := (dispatch_Add raw title h).2.1
      rw [hcmd] at this
      exact absurd (Option.some.inj this) hne
    · obtain ⟨_, _, tok1, h1, h2⟩ := dispatch_Update raw title id h
      rw [htok] at h1
      cases h1
      rw [h2] at herr
      exact absurd rfl herr
    · obtain ⟨_, tok1, h1, h2⟩ := dispatch_Delete raw id h
      rw [htok] at h1
      cases h1
      rw [h2] at herr
      exact absurd rfl herr
    · obtain ⟨_, tok1, h1, h2⟩ := dispatch_Toggle raw id h
      rw [htok] at h1
      cases h1
      rw [h2] at herr
      exact absurd rfl herr
  · intro rest hcmd hrest hempty
    rcases processLine_cases s raw with h | ⟨title, h, _⟩ | ⟨id, title, h, _⟩ | ⟨id, h, _⟩ |
      ⟨id, h, _⟩
    · exact h
    · obtain ⟨hne, _, rest1, h1, h2⟩ := dispatch_Add raw title h
      rw [hrest] at h1
      cases h1
      rw [hempty] at h2
      exact absurd h2 hne
    · have := (dispatch_Update raw title id h).2.1
      rw [hcmd] at this
      exact absurd (Option.some.inj this) (by decide)
    · have := (dispatch_Delete raw id h).1
      rw [hcmd] at this
      exact absurd (Option.some.inj this) (by decide)
    · have := (dispatch_Toggle raw id h).1
      rw [hcmd] at this
      exact absurd (Option.some.inj this) (by decide)
  · intro cmd hcmd h1 h2 h3 h4
    rcases processLine_cases s raw with h | ⟨title, h, _⟩ | ⟨id, title, h, _⟩ | ⟨id, h, _⟩ |
      ⟨id, h, _⟩
    · exact h
    · have := (dispatch_Add raw title h).2.1
      rw [hcmd] at this
      exact absurd (Option.some.inj this) h1
    · have := (dispatch_Update raw title id h).2.1
      rw [hcmd] at this
      exact absurd (Option.some.inj this) h2
    · have := (dispatch_Delete raw id h).1
      rw [hcmd] at this
      exact absurd (Option.some.inj this) h3
    · have := (dispatch_Toggle raw id h).1
      rw [hcmd] at this
      exact absurd (Option.some.inj this) h4

/-- C16, the code at the failing input. For the line `update  1 foo` (two blanks before the
id) the loop calls `Update(1, "1 foo")`: the title starts at the fixed offset
`len("update ") + len(parts[1])`, which here lies in front of the id token, not behind it.
With one blank the title is the text behind the id, `foo  bar` with its inner blanks. -/
theorem update_title_offset :
    dispatch "update  1 foo\n" = Action.Update 1 "1 foo" ∧
      dispatch "update\t\t42 buy milk\n" = Action.Update 42 "2 buy milk" ∧
      dispatch "update   7 a\n" = Action.Update 7 "7 a" ∧
      dispatch "update 1 foo  bar\n" = Action.Update 1 "foo  bar" := by
  decide

/-- C18. No index or slice expression is out of range: for every store, id and title,
`Update`, `Delete` and `Toggle` return (the index they use is the one `findIndex` found, which
lies within the sequence); and for every input line the command loop reaches no index or
slice out of range: a trimmed line that is not empty has a first field, the `add` branch has a
line of at least `len("add")` bytes, and in the `update` branch with three fields or more the
offset `len("update ") + len(parts[1])` is at most the length of the line. -/
theorem no_out_of_range (s : MemoryStore) (id : Int) (title : String) (raw : String) :
    (∃ r, s.Update id title = some r) ∧ (∃ r, s.Delete id = some r) ∧
      (∃ r, s.Toggle id = some r) ∧
      (s.findIndex id ≠ -1 → 0 ≤ s.findIndex id ∧ s.findIndex id < s.tasks.length) ∧
      dispatch raw ≠ Action.Panic ∧
      (∃ s1, processLine s raw = some s1) ∧
      (strings.TrimSpace raw ≠ "" →
        ∃ cmd, (strings.Fields (strings.TrimSpace raw))[0]? = some cmd) ∧
      ((strings.Fields (strings.TrimSpace raw))[0]? = some "add" →
        3 ≤ (strings.TrimSpace raw).data.length) ∧
      (∀ tok, (strings.Fields (strings.TrimSpace raw))[0]? = some "update" →
        ¬ (strings.Fields (strings.TrimSpace raw)).length < 3 →
        (strings.Fields (strings.TrimSpace raw))[1]? = some tok →
        7 + tok.data.length ≤ (strings.TrimSpace raw).data.length) := by
  obtain ⟨u1, ue, hu, _⟩ := Update_error_iff s id title
  obtain ⟨d1, de, hd, _⟩ := Delete_error_iff s id
  obtain ⟨t1, te, ht, _⟩ := Toggle_error_iff s id
  refine ⟨⟨_, hu⟩, ⟨_, hd⟩, ⟨_, ht⟩, ?_, dispatch_ne_Panic raw, ?_, ?_, ?_, ?_⟩
  · intro hne
    by_cases hp : ∃ t ∈ s.tasks, t.ID = id
    · obtain ⟨k, t, hk, hget, _⟩ := findIndex_present s id hp
      have := (List.getElem?_eq_some_iff.mp hget).1
      rw [hk]
      omega
    · exact absurd (findIndexFrom_absent id s.tasks 0 (fun t ht hid => hp ⟨t, ht, hid⟩)) hne
  · rcases processLine_cases s raw with h | ⟨ti, _, h⟩ | ⟨i, ti, _, h⟩ | ⟨i, _, h⟩ | ⟨i, _, h⟩
    · exact ⟨s, h⟩
    · exact ⟨_, h⟩
    · obtain ⟨a, b, hab, _⟩ := Update_error_iff s i ti
      exact ⟨a, by rw [h, hab]; rfl⟩
    · obtain ⟨a, b, hab, _⟩ := Delete_error_iff s i
      exact ⟨a, by rw [h, hab]; rfl⟩
    · obtain ⟨a, b, hab, _⟩ := Toggle_error_iff s i
      exact ⟨a, by rw [h, hab]; rfl⟩
  · intro hl
    cases hf : strings.Fields (strings.TrimSpace raw) with
    | nil => exact absurd hf (strings.Fields_TrimSpace_ne_nil raw hl)
    | cons cmd rest => exact ⟨cmd, by simp⟩
  · intro hcmd
    cases hf : strings.Fields (strings.TrimSpace raw) with
    | nil => simp [hf] at hcmd
    | cons cmd rest =>
      simp only [hf, List.getElem?_cons_zero, Option.some.injEq] at hcmd
      subst hcmd
      exact add_slice_in_bounds _ rest hf
  · intro tok hcmd hlen htok
    cases hf : strings.Fields (strings.TrimSpace raw) with
    | nil => simp [hf] at hcmd
    | cons cmd rest =>
      rw [hf] at hlen htok
      simp only [hf, List.getElem?_cons_zero, Option.some.injEq] at hcmd
      subst hcmd
      exact update_slice_in_bounds _ tok rest hf hlen htok

end GoTodo

namespace TodoListDB

/-- C13, the code at the failing input. When the lookup of `Store.Toggle` fails with a
backend error, whatever its message, `Toggle` returns the error `task <id> not found`, the
same value it returns when the lookup finds no task; the backend error is not surfaced, while
`Store.Delete` returns the error of its query as it is. -/
theorem Toggle_hides_backend_error (id : Int) (e : String)
    (ut : Int → String → Option String) (ud : Int → Bool → Option String)
    (d : Int → Option String) :
    Store.Toggle ⟨fun _ => (none, some e), ut, ud, d⟩ id = some (notFoundError id) ∧
      Store.Toggle ⟨fun _ => (none, none), ut, ud, d⟩ id = some (notFoundError id) ∧
      Store.Toggle ⟨fun _ => (none, some "connection refused"), ut, ud, d⟩ 7 =
        some "task 7 not found" ∧
      Store.Delete ⟨fun _ => (none, some e), ut, ud, fun _ => some e⟩ id = some e :=
  ⟨rfl, rfl, rfl, rfl⟩

/-- C15, the code at the failing input. For the line `delete abc` the loop of
`todoList-db/main-old.go` calls `Delete(0)` although `strconv.Atoi` refuses the token `abc`:
the error of `Atoi` is discarded and its value 0 is used; `done x` and `update abc t` reach
the store in the same way. -/
theorem dispatch_ignores_Atoi_error :
    (strconv.Atoi "abc").2 = some strconv.NumError.ErrSyntax ∧
      dispatch "delete abc\n" = Action.Delete 0 ∧
      dispatch "done x\n" = Action.Toggle 0 ∧
      dispatch "update abc t\n" = Action.Update 0 "t" ∧
      GoTodo.dispatch "delete abc\n" = GoTodo.Action.Reject "invalid id" := by
  decide

end TodoListDB

namespace TestGo

theorem readNums_length (nums : List Int) : readNums nums.length nums = nums := by
  apply List.ext_getElem?
  intro k
  by_cases hk : k < nums.length
  · simp [readNums, List.getElem?_range hk, List.getD_eq_getElem?_getD, hk]
  · simp [readNums, List.getElem?_eq_none (Nat.le_of_not_lt hk)]
    omega

/-- The loop ends with a value that is at least the start value and every visited element,
and is the start value or one of the elements. -/
theorem maxLoop_spec (l : List Int) : ∀ m : Int,
    m ≤ maxLoop l m ∧ (∀ x ∈ l, x ≤ maxLoop l m) ∧ (maxLoop l m = m ∨ maxLoop l m ∈ l) := by
  induction l with
  | nil =>
    intro m
    simp [maxLoop]
  | cons x rest ih =>
    intro m
    obtain ⟨h1, h2, h3⟩ := ih (if x > m then x else m)
    simp only [maxLoop]
    by_cases hx : x > m
    · simp only [if_pos hx] at h1 h2 h3 ⊢
      refine ⟨by omega, ?_, ?_⟩
      · intro y hy
        rcases List.mem_cons.mp hy with rfl | hy
        · exact h1
        · exact h2 y hy
      · rcases h3 with h3 | h3
        · exact Or.inr (by simp [h3])
        · exact Or.inr (List.mem_cons_of_mem _ h3)
    · simp only [if_neg hx] at h1 h2 h3 ⊢
      refine ⟨h1, ?_, ?_⟩
      · intro y hy
        rcases List.mem_cons.mp hy with rfl | hy
        · omega
        · exact h2 y hy
      · rcases h3 with h3 | h3
        · exact Or.inl h3
        · exact Or.inr (List.mem_cons_of_mem _ h3)

/-- C19. For every list of integers read, with its length as the count, `main` prints the
greatest value among 0 and the integers: the printed value is 0 or one of them and is at
least 0 and each of them; it is the maximum of the list when some element is non-negative,
and 0 when the list is empty or all its elements are negative. -/
theorem main_prints_max (nums : List Int) :
    ∃ out, main (nums.length : Int) nums = some out ∧
      0 ≤ out ∧ (∀ x ∈ nums, x ≤ out) ∧ (out = 0 ∨ out ∈ nums) ∧
      ((∃ x ∈ nums, 0 ≤ x) → out ∈ nums ∧ ∀ x ∈ nums, x ≤ out) ∧
      ((∀ x ∈ nums, x < 0) → out = 0) ∧
      (nums = [] → out = 0) := by
  obtain ⟨h1, h2, h3⟩ := maxLoop_spec nums 0
  refine ⟨maxLoop nums 0, ?_, h1, h2, h3, ?_, ?_, ?_⟩
  · have hn : ¬ ((nums.length : Int) < 0) := by omega
    simp [main, hn, readNums_length]
  · rintro ⟨x, hx, hx0⟩
    refine ⟨?_, h2⟩
    rcases h3 with h3 | h3
    · have := h2 x hx
      have hx2 : x = maxLoop nums 0 := by omega
      rw [← hx2]
      exact hx
    · exact h3
  · intro hneg
    rcases h3 with h3 | h3
    · exact h3
    · have := hneg _ h3
      omega
  · intro hnil
    subst hnil
    rfl

end TestGo
